import Mathlib

/-!
Verification of the sliding-window statistics core of `rust_expr`
(`src/rust_expr/src/lib.rs`).

The embedding models IEEE double-precision values by the type `F`:
a finite value is carried as an exact rational, and the special values
`+inf`, `-inf` and `NaN` are explicit constructors.  Arithmetic on `F`
follows the IEEE rules for special values (NaN propagation, infinity
arithmetic, division by zero), while finite arithmetic is exact rational
arithmetic: the model abstracts from rounding, overflow to infinity, and
the sign of zero.  All concrete scenarios exercised below involve only
values and intermediate results that are exactly representable, where
`f64` arithmetic agrees with the rationals.

`f64::sqrt` is modelled by `ratSqrt`, a rational square root that is exact
on perfect squares and, like the real square root, is positive on positive
inputs; no property proved below depends on the value of a square root
beyond its finiteness.
-/

/-- Model of an IEEE double: an exact finite rational, `+inf`, `-inf`, or NaN. -/

inductive F where
  | fin : ℚ → F
  | pinf : F
  | ninf : F
  | nan : F
deriving DecidableEq, Repr

/-- Rational model of `f64::sqrt` on nonnegative inputs: exact on squares of
rationals, and positive on positive inputs (the two properties of the real
square root used by the source). -/

def ratSqrt (q : ℚ) : ℚ :=
  (Nat.sqrt (q.num.toNat * q.den) : ℚ) / (q.den : ℚ)

/-- Model of `f64::is_nan`. -/

def F.isNan : F → Bool
  | .nan => true
  | _ => false

/-- Model of `f64::is_infinite`. -/

def F.isInfinite : F → Bool
  | .pinf => true
  | .ninf => true
  | _ => false

/-- A value is finite iff it is neither NaN nor infinite. -/

def F.isFinite : F → Bool
  | .fin _ => true
  | _ => false

/-- The rational carried by a finite value. -/

def F.toRat? : F → Option ℚ
  | .fin q => some q
  | _ => none

/-- IEEE addition on the model (exact in the finite case). -/

def F.add : F → F → F
  | .nan, _ => .nan
  | _, .nan => .nan
  | .fin a, .fin b => .fin (a + b)
  | .fin _, .pinf => .pinf
  | .fin _, .ninf => .ninf
  | .pinf, .fin _ => .pinf
  | .ninf, .fin _ => .ninf
  | .pinf, .pinf => .pinf
  | .ninf, .ninf => .ninf
  | .pinf, .ninf => .nan
  | .ninf, .pinf => .nan

/-- IEEE negation on the model. -/

def F.neg : F → F
  | .fin a => .fin (-a)
  | .pinf => .ninf
  | .ninf => .pinf
  | .nan => .nan

/-- IEEE subtraction on the model (exact in the finite case). -/

def F.sub : F → F → F
  | .nan, _ => .nan
  | _, .nan => .nan
  | .fin a, .fin b => .fin (a - b)
  | .fin _, .pinf => .ninf
  | .fin _, .ninf => .pinf
  | .pinf, .fin _ => .pinf
  | .ninf, .fin _ => .ninf
  | .pinf, .pinf => .nan
  | .ninf, .ninf => .nan
  | .pinf, .ninf => .pinf
  | .ninf, .pinf => .ninf

/-- IEEE multiplication on the model (exact in the finite case; `0 * inf = NaN`). -/

def F.mul : F → F → F
  | .nan, _ => .nan
  | _, .nan => .nan
  | .fin a, .fin b => .fin (a * b)
  | .fin a, .pinf => if 0 < a then .pinf else if a < 0 then .ninf else .nan
  | .fin a, .ninf => if 0 < a then .ninf else if a < 0 then .pinf else .nan
  | .pinf, .fin b => if 0 < b then .pinf else if b < 0 then .ninf else .nan
  | .ninf, .fin b => if 0 < b then .ninf else if b < 0 then .pinf else .nan
  | .pinf, .pinf => .pinf
  | .pinf, .ninf => .ninf
  | .ninf, .pinf => .ninf
  | .ninf, .ninf => .pinf

/-- IEEE division on the model (exact in the finite case; `x/0` is a signed
infinity for `x ≠ 0` and NaN for `x = 0`; the model has no negative zero). -/

def F.div : F → F → F
  | .nan, _ => .nan
  | _, .nan => .nan
  | .fin a, .fin b =>
      if b = 0 then (if a = 0 then .nan else if 0 < a then .pinf else .ninf)
      else .fin (a / b)
  | .fin _, .pinf => .fin 0
  | .fin _, .ninf => .fin 0
  | .pinf, .fin b => if 0 ≤ b then .pinf else .ninf
  | .ninf, .fin b => if 0 ≤ b then .ninf else .pinf
  | .pinf, .pinf => .nan
  | .pinf, .ninf => .nan
  | .ninf, .pinf => .nan
  | .ninf, .ninf => .nan

instance : Add F := ⟨F.add⟩

instance : Neg F := ⟨F.neg⟩

instance : Sub F := ⟨F.sub⟩

instance : Mul F := ⟨F.mul⟩

instance : Div F := ⟨F.div⟩

/-- Mirror of `ExprError` from the source. -/

inductive ExprError where
  | invalidPeriod : String → ExprError
  | computationError : String → ExprError
deriving DecidableEq, Repr

/-- The last `min w l.length` elements of a list: the content of a FIFO window
buffer of capacity `w` after the whole of `l` has streamed through it. -/

def lastN (w : ℕ) (l : List α) : List α :=
  l.drop (l.length - w)

/-- All elements of a list are equal (a constant window: zero variance). -/

def allEq (l : List ℚ) : Prop := ∀ a ∈ l, ∀ b ∈ l, a = b

instance : DecidablePred allEq := fun l => by
  unfold allEq; infer_instance

/-- Emission step shared by the rolling-mean loop (lines 38-42 of the source):
sentinel while fewer than `window` values are in the buffer, else `sum / count`. -/

def meanEmit (window : ℕ) (sum : F) (count : ℕ) : F :=
  if count < window then F.nan else sum / F.fin (count : ℚ)

/-- Loop body of `rolling_mean` (lines 28-43): push the value, pop the oldest
once the buffer exceeds `window`, and emit `meanEmit`.  `pop_front().unwrap()`
is `headD`/`tail` of the freshly pushed (hence nonempty) queue: the `headD`
default is never taken. -/

def rollingMeanGo (window : ℕ) : List F → List F → F → ℕ → List F
  | [], _queue, _sum, _count => []
  | val :: rest, queue, sum, count =>
    if count + 1 > window then
      meanEmit window ((sum + val) - (queue ++ [val]).headD F.nan) count ::
        rollingMeanGo window rest (queue ++ [val]).tail
          ((sum + val) - (queue ++ [val]).headD F.nan) count
    else meanEmit window (sum + val) (count + 1) ::
      rollingMeanGo window rest (queue ++ [val]) (sum + val) (count + 1)

/-- `rolling_mean` (lines 17-46 of the source). -/

def rolling_mean (data : List F) (window : ℕ) : Except ExprError (List F) :=
  if window < 1 then .error (.invalidPeriod "Window size must be positive")
  else .ok (rollingMeanGo window data [] (F.fin 0) 0)

/-- Emission step of `rolling_std` (lines 79-89 of the source).  The queue of a
run of `rolling_std` only ever holds finite values, so the running sums are
exact rationals. -/

def stdEmit (window : ℕ) (sum sumsq : ℚ) (count : ℕ) : F :=
  if count < window then F.nan
  else
    let mean := sum / (count : ℚ)
    let variance := sumsq / (count : ℚ) - mean * mean
    if variance ≤ 0 then F.nan else F.fin (ratSqrt variance)

/-- Loop body of `rolling_std` (lines 61-90): a NaN or infinite value emits the
sentinel and leaves the whole state untouched (`continue`); a finite value is
pushed, the oldest is popped once the buffer exceeds `window`, and `stdEmit`
is emitted.  `pop_front().unwrap()` is `headD`/`tail` of the freshly pushed
(hence nonempty) queue: the `headD` default is never taken. -/

def rollingStdGo (window : ℕ) : List F → List ℚ → ℚ → ℚ → ℕ → List F
  | [], _queue, _sum, _sumsq, _count => []
  | F.fin v :: rest, queue, sum, sumsq, count =>
    if count + 1 > window then
      stdEmit window ((sum + v) - (queue ++ [v]).headD 0)
          ((sumsq + v * v) - (queue ++ [v]).headD 0 * (queue ++ [v]).headD 0) count ::
        rollingStdGo window rest (queue ++ [v]).tail
          ((sum + v) - (queue ++ [v]).headD 0)
          ((sumsq + v * v) - (queue ++ [v]).headD 0 * (queue ++ [v]).headD 0) count
    else stdEmit window (sum + v) (sumsq + v * v) (count + 1) ::
      rollingStdGo window rest (queue ++ [v]) (sum + v) (sumsq + v * v) (count + 1)
  | _ :: rest, queue, sum, sumsq, count =>
    F.nan :: rollingStdGo window rest queue sum sumsq count

/-- `rolling_std` (lines 49-93 of the source). -/

def rolling_std (data : List F) (window : ℕ) : Except ExprError (List F) :=
  if window < 2 then .error (.invalidPeriod "Window size must be at least 2")
  else .ok (rollingStdGo window data [] 0 0 0)

/-- Body of the `pct_change` loop at output position `i` (lines 104-120 of the
source); `data[i]` and `data[i - periods]` are always in bounds in the source,
so `getD` never takes its default. -/

def pctAt (data : List F) (periods : ℕ) (i : ℕ) : F :=
  if i < periods then F.nan
  else
    let prev := data.getD (i - periods) F.nan
    if prev.isNan ∨ prev.isInfinite ∨ prev = F.fin 0 then F.nan
    else
      let curr := data.getD i F.nan
      if curr.isNan ∨ curr.isInfinite then F.nan
      else (curr - prev) / prev

/-- `pct_change` (lines 96-123 of the source). -/

def pct_change (data : List F) (periods : ℕ) : Except ExprError (List F) :=
  if periods < 1 then .error (.invalidPeriod "Period must be positive")
  else .ok ((List.range data.length).map (pctAt data periods))

/-- Body of the `rolling_rank` loop at output position `i` (lines 134-158 of
the source).  `i - (window - 1)` is the saturating subtraction of the source
(ℕ subtraction saturates); the slice `s![start..=i]` is
`(data.drop start).take (i - start + 1)`; filtering the finite values and
copying them out is `filterMap F.toRat?`; the comparison `x <= current` on
finite doubles is the rational order. -/

def rankAt (data : List F) (window : ℕ) (i : ℕ) : F :=
  if i < window - 1 then F.nan
  else
    let start := i - (window - 1)
    let windowData := ((data.drop start).take (i - start + 1)).filterMap F.toRat?
    if windowData.isEmpty then F.nan
    else
      match data.getD i F.nan with
      | F.fin current =>
          F.fin (((windowData.filter fun x => decide (x ≤ current)).length : ℚ) /
            (windowData.length : ℚ))
      | _ => F.nan

/-- `rolling_rank` (lines 126-162 of the source). -/

def rolling_rank (data : List F) (window : ℕ) : Except ExprError (List F) :=
  if window < 2 then .error (.invalidPeriod "Window size must be at least 2")
  else .ok ((List.range data.length).map (rankAt data window))

/-- A pair of doubles both of which are finite (a valid sample for the
correlation aggregator). -/

def toPair? : F × F → Option (ℚ × ℚ)
  | (F.fin a, F.fin b) => some (a, b)
  | _ => none

/-- Emission step of `rolling_correlation` (lines 207-221 of the source). -/

def corrEmit (window : ℕ) (sx sy sxy sxx syy : ℚ) (count : ℕ) : F :=
  if count < window then F.nan
  else
    let mean_x := sx / (count : ℚ)
    let mean_y := sy / (count : ℚ)
    let cov := sxy / (count : ℚ) - mean_x * mean_y
    let var_x := sxx / (count : ℚ) - mean_x * mean_x
    let var_y := syy / (count : ℚ) - mean_y * mean_y
    if var_x ≤ 0 ∨ var_y ≤ 0 then F.nan
    else F.fin (cov / (ratSqrt var_x * ratSqrt var_y))

/-- Loop body of `rolling_correlation` (lines 181-222): a step whose `x` or `y`
is NaN or infinite emits the sentinel and leaves the state untouched; a valid
pair is pushed into both queues and all five running sums, with the oldest
pair popped once the buffers exceed `window`.  `pop_front().unwrap()` is
`headD`/`tail` of the freshly pushed (hence nonempty) queue: the `headD`
default is never taken.  The two parallel deques of the source are modelled
as one deque of pairs (they are pushed and popped in lockstep). -/

def corrGo (window : ℕ) :
    List (F × F) → List (ℚ × ℚ) → ℚ → ℚ → ℚ → ℚ → ℚ → ℕ → List F
  | [], _, _, _, _, _, _, _ => []
  | (F.fin a, F.fin b) :: rest, queue, sx, sy, sxy, sxx, syy, count =>
    if count + 1 > window then
      corrEmit window ((sx + a) - ((queue ++ [(a, b)]).headD (0, 0)).1)
          ((sy + b) - ((queue ++ [(a, b)]).headD (0, 0)).2)
          ((sxy + a * b) - ((queue ++ [(a, b)]).headD (0, 0)).1 *
            ((queue ++ [(a, b)]).headD (0, 0)).2)
          ((sxx + a * a) - ((queue ++ [(a, b)]).headD (0, 0)).1 *
            ((queue ++ [(a, b)]).headD (0, 0)).1)
          ((syy + b * b) - ((queue ++ [(a, b)]).headD (0, 0)).2 *
            ((queue ++ [(a, b)]).headD (0, 0)).2) count ::
        corrGo window rest (queue ++ [(a, b)]).tail
          ((sx + a) - ((queue ++ [(a, b)]).headD (0, 0)).1)
          ((sy + b) - ((queue ++ [(a, b)]).headD (0, 0)).2)
          ((sxy + a * b) - ((queue ++ [(a, b)]).headD (0, 0)).1 *
            ((queue ++ [(a, b)]).headD (0, 0)).2)
          ((sxx + a * a) - ((queue ++ [(a, b)]).headD (0, 0)).1 *
            ((queue ++ [(a, b)]).headD (0, 0)).1)
          ((syy + b * b) - ((queue ++ [(a, b)]).headD (0, 0)).2 *
            ((queue ++ [(a, b)]).headD (0, 0)).2) count
    else corrEmit window (sx + a) (sy + b) (sxy + a * b) (sxx + a * a)
        (syy + b * b) (count + 1) ::
      corrGo window rest (queue ++ [(a, b)]) (sx + a) (sy + b) (sxy + a * b)
        (sxx + a * a) (syy + b * b) (count + 1)
  | _ :: rest, queue, sx, sy, sxy, sxx, syy, count =>
    F.nan :: corrGo window rest queue sx sy sxy sxx syy count

/-- `rolling_correlation` (lines 165-225 of the source).  The source iterates
`i` over `0..x.len()` and indexes `y[i]`, panicking if `y` is shorter; the
embedding streams over `x.zip y` and is used only at equal lengths, as the
spec requires of callers. -/

def rolling_correlation (x y : List F) (window : ℕ) : Except ExprError (List F) :=
  if window < 2 then .error (.invalidPeriod "Window size must be at least 2")
  else .ok (corrGo window (x.zip y) [] 0 0 0 0 0 0)

/-- `momentum_factor` (lines 259-281 of the source). -/

def momentum_factor (prices : List F) (lookback : ℕ) : Except ExprError (List F) := do
  let returns ← pct_change prices 1
  let momentum ← pct_change prices lookback
  let vol ← rolling_std returns lookback
  return ((momentum.zip vol).map fun mv =>
    if mv.1.isNan ∨ mv.1.isInfinite ∨ mv.2.isNan ∨ mv.2.isInfinite ∨ mv.2 = F.fin 0
    then F.nan else mv.1 / mv.2)

/-- `mean_reversion_factor` (lines 285-305 of the source). -/

def mean_reversion_factor (prices : List F) (lookback : ℕ) : Except ExprError (List F) := do
  let ma ← rolling_mean prices lookback
  let std ← rolling_std prices lookback
  return ((prices.zip (ma.zip std)).map fun xms =>
    if xms.1.isNan ∨ xms.1.isInfinite ∨ xms.2.1.isNan ∨ xms.2.1.isInfinite ∨
        xms.2.2.isNan ∨ xms.2.2.isInfinite ∨ xms.2.2 = F.fin 0
    then F.nan else (-(xms.1 - xms.2.1)) / xms.2.2)

/-- The `for (&tf, &weight) in timeframes.iter().zip(weights.iter())` loop of
`relative_strength_factor` (lines 317-321): each iteration short-circuits on
error and otherwise adds the weighted, NaN-zeroed rank elementwise. -/

def rsfLoop (prices : List F) (lookback : ℕ) :
    List (ℕ × ℚ) → List F → Except ExprError (List F)
  | [], result => .ok result
  | tw :: rest, result => do
    let mom ← pct_change prices tw.1
    let rank ← rolling_rank mom lookback
    rsfLoop prices lookback rest
      (result.zipWith (fun a b => a + b)
        (rank.map fun x => if x.isNan ∨ x.isInfinite then F.fin 0 else x * F.fin tw.2))

/-- `relative_strength_factor` (lines 309-324 of the source).  The weights
`0.5, 0.3, 0.2` are modelled by the exact rationals they denote (the `f64`
literals `0.3` and `0.2` round to nearby dyadics; no claim below depends on
the weight values, only on their finiteness). -/

def relative_strength_factor (prices : List F) (lookback : ℕ) :
    Except ExprError (List F) :=
  rsfLoop prices lookback
    [(lookback / 3, (1 : ℚ) / 2), (lookback, 3 / 10), (lookback * 2, 1 / 5)]
    (List.replicate prices.length (F.fin 0))

/-- `alpha101_factor_42` (lines 229-252 of the source); like the correlation it
is used only at equal input lengths. -/

def alpha101_factor_42 (high volume : List F) : Except ExprError (List F) := do
  let high_std ← rolling_std high 10
  let vol_rank ← rolling_rank high_std 10
  let vol_price_corr ← rolling_correlation high volume 10
  return (List.zipWith (fun a b => a * b)
    (vol_rank.map fun x => if x.isNan ∨ x.isInfinite then F.nan else -x)
    (vol_price_corr.map fun x => if x.isNan ∨ x.isInfinite then F.nan else x))

/-- Stateless description of the rolling-mean scan on all-finite input: the
window at each step is the last `w` values of what has streamed so far. -/

def meanSpecGo (w : ℕ) : List ℚ → List ℚ → List F
  | _pre, [] => []
  | pre, v :: rest =>
    meanEmit w (F.fin (lastN w (pre ++ [v])).sum) (lastN w (pre ++ [v])).length ::
      meanSpecGo w (lastN w (pre ++ [v])) rest

/-- The rolling-std output determined by the current window of valid samples
(lines 79-89 of the source, with the running sums written out as sums over
the window content). -/

def stdOutV (w : ℕ) (V : List ℚ) : F :=
  stdEmit w V.sum ((V.map fun x => x * x).sum) V.length

/-- Stateless description of the rolling-std scan: non-finite values emit the
sentinel and do not touch the window; finite values slide into the window of
the last `w` valid samples. -/

def stdSpecGo (w : ℕ) : List ℚ → List F → List F
  | _pre, [] => []
  | pre, F.fin v :: rest =>
    stdOutV w (lastN w (pre ++ [v])) :: stdSpecGo w (lastN w (pre ++ [v])) rest
  | pre, F.pinf :: rest => F.nan :: stdSpecGo w pre rest
  | pre, F.ninf :: rest => F.nan :: stdSpecGo w pre rest
  | pre, F.nan :: rest => F.nan :: stdSpecGo w pre rest

/-- The rolling-correlation output determined by the current window of valid
pairs (lines 207-221 of the source, with the running sums written out as sums
over the window content). -/

def corrOutV (w : ℕ) (V : List (ℚ × ℚ)) : F :=
  corrEmit w ((V.map Prod.fst).sum) ((V.map Prod.snd).sum)
    ((V.map fun q => q.1 * q.2).sum) ((V.map fun q => q.1 * q.1).sum)
    ((V.map fun q => q.2 * q.2).sum) V.length

/-- Stateless description of the rolling-correlation scan: a pair with a
non-finite coordinate emits the sentinel and does not touch the window;
valid pairs slide into the window of the last `w` valid pairs. -/

def corrSpecGo (w : ℕ) : List (ℚ × ℚ) → List (F × F) → List F
  | _pre, [] => []
  | pre, (F.fin a, F.fin b) :: rest =>
    corrOutV w (lastN w (pre ++ [(a, b)])) ::
      corrSpecGo w (lastN w (pre ++ [(a, b)])) rest
  | pre, _ :: rest => F.nan :: corrSpecGo w pre rest

instance {ε α : Type} [DecidableEq ε] [DecidableEq α] : DecidableEq (Except ε α) :=
  fun a b =>
    match a, b with
    | .error e1, .error e2 =>
        match decEq e1 e2 with
        | isTrue h => isTrue (by rw [h])
        | isFalse h => isFalse (fun he => h (Except.error.inj he))
    | .ok r1, .ok r2 =>
        match decEq r1 r2 with
        | isTrue h => isTrue (by rw [h])
        | isFalse h => isFalse (fun he => h (Except.ok.inj he))
    | .error _, .ok _ => isFalse (fun he => Except.noConfusion he)
    | .ok _, .error _ => isFalse (fun he => Except.noConfusion he)

theorem lastN_length (w : ℕ) (l : List α) : (lastN w l).length = min w l.length := by
  simp [lastN]
  omega

theorem lastN_of_le (w : ℕ) (l : List α) (h : l.length ≤ w) : lastN w l = l := by
  simp [lastN, Nat.sub_eq_zero_of_le h]

theorem lastN_cons (w : ℕ) (a : α) (l : List α) (h : w ≤ l.length) :
    lastN w (a :: l) = lastN w l := by
  rw [lastN, lastN, List.length_cons]
  have e : l.length + 1 - w = (l.length - w) + 1 := by omega
  rw [e, List.drop_succ_cons]

theorem lastN_append_of_ge (w : ℕ) (l m : List α) (h : w ≤ m.length) :
    lastN w (l ++ m) = lastN w m := by
  have e : (l ++ m).length - w = l.length + (m.length - w) := by simp; omega
  rw [lastN, e, List.drop_append, lastN]

theorem lastN_append_right (w : ℕ) (l m : List α) (h : m.length = w) :
    lastN w (l ++ m) = m := by
  rw [lastN_append_of_ge w l m (by omega), lastN_of_le w m (by omega)]

theorem lastN_append_lastN (w : ℕ) (l m : List α) :
    lastN w (lastN w l ++ m) = lastN w (l ++ m) := by
  rcases Nat.le_total m.length w with hm | hm
  · rcases Nat.le_total l.length w with h | h
    · rw [lastN_of_le w l h]
    · simp only [lastN]
      have e1 : (List.drop (l.length - w) l ++ m).length - w = m.length := by
        simp; omega
      have e2 : (l ++ m).length - w = l.length + m.length - w := by simp
      rw [e1, e2, List.drop_append_of_le_length (by simp; omega),
        List.drop_append_of_le_length (by omega)]
      congr 1
      rw [List.drop_drop]
      congr 1
      omega
  · rw [lastN_append_of_ge w _ m hm, lastN_append_of_ge w l m hm]

theorem F.add_fin (a b : ℚ) : F.fin a + F.fin b = F.fin (a + b) := rfl

theorem F.sub_fin (a b : ℚ) : F.fin a - F.fin b = F.fin (a - b) := rfl

theorem F.mul_fin (a b : ℚ) : F.fin a * F.fin b = F.fin (a * b) := rfl

theorem F.div_fin (a b : ℚ) (hb : b ≠ 0) : F.fin a / F.fin b = F.fin (a / b) := by
  show F.div _ _ = _
  simp [F.div, hb]

theorem meanSpecGo_length (w : ℕ) :
    ∀ (input pre : List ℚ), (meanSpecGo w pre input).length = input.length := by
  intro input
  induction input with
  | nil => intro pre; rfl
  | cons v rest ih => intro pre; simp [meanSpecGo, ih]

theorem rollingMeanGo_length (w : ℕ) :
    ∀ (input queue : List F) (sum : F) (count : ℕ),
      (rollingMeanGo w input queue sum count).length = input.length := by
  intro input
  induction input with
  | nil => intro queue sum count; rfl
  | cons v rest ih =>
    intro queue sum count
    rw [rollingMeanGo]
    split
    · simp [ih]
    · simp [ih]

/-- Simulation: on all-finite input the rolling-mean loop state is exactly the
last `min count w` streamed values, their exact sum, and their count. -/
theorem rollingMeanGo_sim (w : ℕ) (hw : 1 ≤ w) :
    ∀ (input pre : List ℚ), pre.length ≤ w →
      rollingMeanGo w (input.map F.fin) (pre.map F.fin) (F.fin pre.sum) pre.length
        = meanSpecGo w pre input := by
  intro input
  induction input with
  | nil => intro pre _; rfl
  | cons v rest ih =>
    intro pre hpre
    rw [List.map_cons, rollingMeanGo, meanSpecGo]
    rcases Nat.lt_or_ge pre.length w with hlt | hge
    · have hcond : ¬ (pre.length + 1 > w) := by omega
      rw [if_neg hcond]
      have hlast : lastN w (pre ++ [v]) = pre ++ [v] := by
        apply lastN_of_le
        simp
        omega
      have hsum : F.fin pre.sum + F.fin v = F.fin ((pre ++ [v]).sum) := by
        rw [F.add_fin]
        congr 1
        rw [List.sum_append, List.sum_cons, List.sum_nil]
        ring
      have hq : (pre.map F.fin) ++ [F.fin v] = (pre ++ [v]).map F.fin := by simp
      have hc : pre.length + 1 = (pre ++ [v]).length := by simp
      rw [hlast, hsum, hq, hc, ih (pre ++ [v]) (by simp; omega)]
    · have hlen : pre.length = w := le_antisymm hpre hge
      have hcond : pre.length + 1 > w := by omega
      rw [if_pos hcond]
      rcases pre with _ | ⟨p, ps⟩
      · exfalso
        simp at hlen
        omega
      · have hps : ps.length + 1 = w := by simpa using hlen
        have hhead : ((p :: ps).map F.fin ++ [F.fin v]).headD F.nan = F.fin p := rfl
        have htail : ((p :: ps).map F.fin ++ [F.fin v]).tail = (ps ++ [v]).map F.fin := by
          simp
        have hsum : (F.fin (p :: ps).sum + F.fin v) - F.fin p
            = F.fin ((ps ++ [v]).sum) := by
          rw [F.add_fin, F.sub_fin]
          congr 1
          rw [List.sum_cons, List.sum_append, List.sum_cons, List.sum_nil]
          ring
        have hlast : lastN w ((p :: ps) ++ [v]) = ps ++ [v] := by
          rw [List.cons_append, lastN_cons w p (ps ++ [v]) (by simp; omega),
            lastN_of_le w (ps ++ [v]) (by simp; omega)]
        have hc : (p :: ps).length = (ps ++ [v]).length := by simp
        rw [hhead, htail, hsum, hlast, hc, ih (ps ++ [v]) (by simp; omega)]

theorem meanSpecGo_getD (w : ℕ) :
    ∀ (input pre : List ℚ) (j : ℕ), pre.length ≤ w → j < input.length →
      (meanSpecGo w pre input).getD j F.nan =
        meanEmit w (F.fin (lastN w (pre ++ input.take (j+1))).sum)
          (lastN w (pre ++ input.take (j+1))).length := by
  intro input
  induction input with
  | nil => intro pre j _ hj; simp at hj
  | cons v rest ih =>
    intro pre j hpre hj
    rcases j with _ | j
    · simp [meanSpecGo, List.getD_cons_zero]
    · rw [meanSpecGo, List.getD_cons_succ,
        ih (lastN w (pre ++ [v])) j (by rw [lastN_length]; omega) (by simp at hj; omega)]
      rw [lastN_append_lastN]
      have : (pre ++ [v]) ++ rest.take (j+1) = pre ++ (v :: rest).take (j+1+1) := by
        simp
      rw [this]

theorem rollingMeanGo_getD_nan (w : ℕ) :
    ∀ (input queue : List F) (sum : F) (count j : ℕ), j < input.length →
      count + j + 1 < w →
      (rollingMeanGo w input queue sum count).getD j F.nan = F.nan := by
  intro input
  induction input with
  | nil => intro _ _ _ j hj _; simp at hj
  | cons v rest ih =>
    intro queue sum count j hj hcount
    rw [rollingMeanGo, if_neg (by omega)]
    rcases j with _ | j
    · rw [List.getD_cons_zero, meanEmit, if_pos (by omega)]
    · rw [List.getD_cons_succ]
      exact ih _ _ _ j (by simp at hj; omega) (by omega)

/-- A NaN or infinite input emits the sentinel and leaves the rolling-std
state (queue and both running sums) untouched. -/
theorem rollingStdGo_skip (w : ℕ) (val : F) (rest : List F) (queue : List ℚ)
    (sum sumsq : ℚ) (count : ℕ) (h : val.isFinite = false) :
    rollingStdGo w (val :: rest) queue sum sumsq count
      = F.nan :: rollingStdGo w rest queue sum sumsq count := by
  cases val
  · simp [F.isFinite] at h
  · rfl
  · rfl
  · rfl

theorem stdSpecGo_length (w : ℕ) :
    ∀ (input : List F) (pre : List ℚ), (stdSpecGo w pre input).length = input.length := by
  intro input
  induction input with
  | nil => intro pre; rfl
  | cons val rest ih =>
    intro pre
    cases val <;> simp [stdSpecGo, ih]

theorem rollingStdGo_length (w : ℕ) :
    ∀ (input : List F) (queue : List ℚ) (sum sumsq : ℚ) (count : ℕ),
      (rollingStdGo w input queue sum sumsq count).length = input.length := by
  intro input
  induction input with
  | nil => intro _ _ _ _; rfl
  | cons val rest ih =>
    intro queue sum sumsq count
    cases val
    case fin v =>
      rw [rollingStdGo]
      split
      · simp [ih]
      · simp [ih]
    all_goals rw [rollingStdGo_skip w _ _ _ _ _ _ (by rfl)]; simp [ih]

/-- Simulation: the rolling-std loop state is exactly the last `min count w`
valid (finite) streamed values with their exact sum and sum of squares. -/
theorem rollingStdGo_sim (w : ℕ) (hw : 1 ≤ w) :
    ∀ (input : List F) (pre : List ℚ), pre.length ≤ w →
      rollingStdGo w input pre pre.sum ((pre.map fun x => x * x).sum) pre.length
        = stdSpecGo w pre input := by
  intro input
  induction input with
  | nil => intro pre _; rfl
  | cons val rest ih =>
    intro pre hpre
    cases val
    case fin v =>
      rw [rollingStdGo, stdSpecGo, stdOutV]
      rcases Nat.lt_or_ge pre.length w with hlt | hge
      · rw [if_neg (by omega)]
        have h1 : pre.sum + v = (pre ++ [v]).sum := by
          rw [List.sum_append, List.sum_cons, List.sum_nil]
          ring
        have h2 : (pre.map fun x => x * x).sum + v * v
            = ((pre ++ [v]).map fun x => x * x).sum := by
          rw [List.map_append, List.sum_append, List.map_cons, List.map_nil,
            List.sum_cons, List.sum_nil]
          ring
        have hlast : lastN w (pre ++ [v]) = pre ++ [v] :=
          lastN_of_le _ _ (by simp; omega)
        have hc : pre.length + 1 = (pre ++ [v]).length := by simp
        rw [hlast, h1, h2, hc, ih (pre ++ [v]) (by simp; omega)]
      · have hlen : pre.length = w := le_antisymm hpre hge
        rw [if_pos (by omega)]
        rcases pre with _ | ⟨p, ps⟩
        · exfalso
          simp at hlen
          omega
        · have hps : ps.length + 1 = w := by simpa using hlen
          simp only [List.cons_append, List.headD_cons, List.tail_cons]
          have h1 : ((p :: ps).sum + v) - p = (ps ++ [v]).sum := by
            rw [List.sum_cons, List.sum_append, List.sum_cons, List.sum_nil]
            ring
          have h2 : (((p :: ps).map fun x => x * x).sum + v * v) - p * p
              = ((ps ++ [v]).map fun x => x * x).sum := by
            rw [List.map_cons, List.sum_cons, List.map_append, List.sum_append,
              List.map_cons, List.map_nil, List.sum_cons, List.sum_nil]
            ring
          have hlast : lastN w (p :: (ps ++ [v])) = ps ++ [v] := by
            rw [lastN_cons w p (ps ++ [v]) (by simp; omega),
              lastN_of_le w (ps ++ [v]) (by simp; omega)]
          have hc : (p :: ps).length = (ps ++ [v]).length := by simp
          rw [h1, h2, hlast, hc, ih (ps ++ [v]) (by simp; omega)]
    case pinf =>
      rw [rollingStdGo_skip w _ _ _ _ _ _ (by rfl), stdSpecGo, ih pre hpre]
    case ninf =>
      rw [rollingStdGo_skip w _ _ _ _ _ _ (by rfl), stdSpecGo, ih pre hpre]
    case nan =>
      rw [rollingStdGo_skip w _ _ _ _ _ _ (by rfl), stdSpecGo, ih pre hpre]

theorem stdSpecGo_getD_fin (w : ℕ) :
    ∀ (input : List F) (pre : List ℚ) (j : ℕ) (v : ℚ), pre.length ≤ w →
      j < input.length → input.getD j F.nan = F.fin v →
      (stdSpecGo w pre input).getD j F.nan =
        stdOutV w (lastN w (pre ++ (input.take (j+1)).filterMap F.toRat?)) := by
  intro input
  induction input with
  | nil => intro pre j v _ hj _; simp at hj
  | cons val rest ih =>
    intro pre j v hpre hj hv
    rcases j with _ | j
    · rw [List.getD_cons_zero] at hv
      subst hv
      rw [stdSpecGo, List.getD_cons_zero]
      simp [F.toRat?]
    · rw [List.getD_cons_succ] at hv
      cases val
      case fin v0 =>
        rw [stdSpecGo, List.getD_cons_succ,
          ih (lastN w (pre ++ [v0])) j v (by rw [lastN_length]; omega)
            (by simp at hj; omega) hv, lastN_append_lastN]
        have : (pre ++ [v0]) ++ (rest.take (j+1)).filterMap F.toRat?
            = pre ++ ((F.fin v0 :: rest).take (j+1+1)).filterMap F.toRat? := by
          simp [F.toRat?]
        rw [this]
      case pinf =>
        rw [stdSpecGo, List.getD_cons_succ, ih pre j v hpre (by simp at hj; omega) hv]
        have : pre ++ (rest.take (j+1)).filterMap F.toRat?
            = pre ++ ((F.pinf :: rest).take (j+1+1)).filterMap F.toRat? := by
          simp [F.toRat?]
        rw [this]
      case ninf =>
        rw [stdSpecGo, List.getD_cons_succ, ih pre j v hpre (by simp at hj; omega) hv]
        have : pre ++ (rest.take (j+1)).filterMap F.toRat?
            = pre ++ ((F.ninf :: rest).take (j+1+1)).filterMap F.toRat? := by
          simp [F.toRat?]
        rw [this]
      case nan =>
        rw [stdSpecGo, List.getD_cons_succ, ih pre j v hpre (by simp at hj; omega) hv]
        have : pre ++ (rest.take (j+1)).filterMap F.toRat?
            = pre ++ ((F.nan :: rest).take (j+1+1)).filterMap F.toRat? := by
          simp [F.toRat?]
        rw [this]

theorem stdSpecGo_getD_nonfin (w : ℕ) :
    ∀ (input : List F) (pre : List ℚ) (j : ℕ), j < input.length →
      (input.getD j F.nan).isFinite = false →
      (stdSpecGo w pre input).getD j F.nan = F.nan := by
  intro input
  induction input with
  | nil => intro pre j hj _; simp at hj
  | cons val rest ih =>
    intro pre j hj hv
    rcases j with _ | j
    · rw [List.getD_cons_zero] at hv
      cases val
      · simp [F.isFinite] at hv
      · rw [stdSpecGo, List.getD_cons_zero]
      · rw [stdSpecGo, List.getD_cons_zero]
      · rw [stdSpecGo, List.getD_cons_zero]
    · rw [List.getD_cons_succ] at hv
      cases val <;>
        rw [stdSpecGo, List.getD_cons_succ, ih _ j (by simp at hj; omega) hv]

theorem sum_map_push {α : Type} (f : α → ℚ) (l : List α) (x : α) :
    (l.map f).sum + f x = ((l ++ [x]).map f).sum := by
  rw [List.map_append, List.sum_append, List.map_cons, List.map_nil,
    List.sum_cons, List.sum_nil]
  ring

theorem sum_map_push_pop {α : Type} (f : α → ℚ) (p : α) (ps : List α) (x : α) :
    (((p :: ps).map f).sum + f x) - f p = ((ps ++ [x]).map f).sum := by
  rw [List.map_cons, List.sum_cons, ← sum_map_push]
  ring

theorem toPair?_eq_some (p : F × F) (ab : ℚ × ℚ) (h : toPair? p = some ab) :
    p = (F.fin ab.1, F.fin ab.2) := by
  rcases p with ⟨x, y⟩
  cases x <;> cases y <;> simp [toPair?] at h
  rw [← h]

theorem corrSpecGo_valid (w : ℕ) (pre : List (ℚ × ℚ)) (p : F × F) (ab : ℚ × ℚ)
    (rest : List (F × F)) (h : toPair? p = some ab) :
    corrSpecGo w pre (p :: rest) =
      corrOutV w (lastN w (pre ++ [ab])) ::
        corrSpecGo w (lastN w (pre ++ [ab])) rest := by
  rw [toPair?_eq_some p ab h]
  rfl

theorem corrSpecGo_skip (w : ℕ) (pre : List (ℚ × ℚ)) (p : F × F)
    (rest : List (F × F)) (h : toPair? p = none) :
    corrSpecGo w pre (p :: rest) = F.nan :: corrSpecGo w pre rest := by
  rcases p with ⟨x, y⟩
  cases x <;> cases y <;> first
    | rfl
    | (exfalso; simp [toPair?] at h)

/-- A pair with a NaN or infinite coordinate emits the sentinel and leaves the
whole rolling-correlation state (queues and all five running sums) untouched. -/
theorem corrGo_skip (w : ℕ) (p : F × F) (rest : List (F × F))
    (queue : List (ℚ × ℚ)) (sx sy sxy sxx syy : ℚ) (count : ℕ)
    (h : toPair? p = none) :
    corrGo w (p :: rest) queue sx sy sxy sxx syy count
      = F.nan :: corrGo w rest queue sx sy sxy sxx syy count := by
  rcases p with ⟨x, y⟩
  cases x <;> cases y <;> first
    | rfl
    | (exfalso; simp [toPair?] at h)

theorem corrSpecGo_length (w : ℕ) :
    ∀ (input : List (F × F)) (pre : List (ℚ × ℚ)),
      (corrSpecGo w pre input).length = input.length := by
  intro input
  induction input with
  | nil => intro pre; rfl
  | cons p rest ih =>
    intro pre
    rcases h : toPair? p with _ | ab
    · rw [corrSpecGo_skip w pre p rest h]
      simp [ih]
    · rw [corrSpecGo_valid w pre p ab rest h]
      simp [ih]

theorem corrGo_length (w : ℕ) :
    ∀ (input : List (F × F)) (queue : List (ℚ × ℚ)) (sx sy sxy sxx syy : ℚ)
      (count : ℕ),
      (corrGo w input queue sx sy sxy sxx syy count).length = input.length := by
  intro input
  induction input with
  | nil => intro _ _ _ _ _ _ _; rfl
  | cons p rest ih =>
    intro queue sx sy sxy sxx syy count
    rcases h : toPair? p with _ | ab
    · rw [corrGo_skip w p rest queue sx sy sxy sxx syy count h]
      simp [ih]
    · rw [toPair?_eq_some p ab h, corrGo]
      split
      · simp [ih]
      · simp [ih]

/-- Simulation: the rolling-correlation loop state is exactly the last
`min count w` valid streamed pairs with their exact running sums. -/
theorem corrGo_sim (w : ℕ) (hw : 1 ≤ w) :
    ∀ (input : List (F × F)) (pre : List (ℚ × ℚ)), pre.length ≤ w →
      corrGo w input pre ((pre.map Prod.fst).sum) ((pre.map Prod.snd).sum)
        ((pre.map fun q => q.1 * q.2).sum) ((pre.map fun q => q.1 * q.1).sum)
        ((pre.map fun q => q.2 * q.2).sum) pre.length
      = corrSpecGo w pre input := by
  intro input
  induction input with
  | nil => intro pre _; rfl
  | cons p rest ih =>
    intro pre hpre
    rcases h : toPair? p with _ | ab
    · rw [corrGo_skip w p rest _ _ _ _ _ _ _ h, corrSpecGo_skip w pre p rest h,
        ih pre hpre]
    · rcases ab with ⟨a, b⟩
      have hp : p = (F.fin a, F.fin b) := by simpa using toPair?_eq_some p (a, b) h
      subst hp
      rw [corrSpecGo_valid w pre _ (a, b) rest h, corrGo, corrOutV]
      rcases Nat.lt_or_ge pre.length w with hlt | hge
      · rw [if_neg (by omega)]
        have h1 : (pre.map Prod.fst).sum + a = ((pre ++ [(a, b)]).map Prod.fst).sum := by
          simpa using sum_map_push Prod.fst pre (a, b)
        have h2 : (pre.map Prod.snd).sum + b = ((pre ++ [(a, b)]).map Prod.snd).sum := by
          simpa using sum_map_push Prod.snd pre (a, b)
        have h3 : (pre.map fun q => q.1 * q.2).sum + a * b
            = ((pre ++ [(a, b)]).map fun q => q.1 * q.2).sum := by
          simpa using sum_map_push (fun q => q.1 * q.2) pre (a, b)
        have h4 : (pre.map fun q => q.1 * q.1).sum + a * a
            = ((pre ++ [(a, b)]).map fun q => q.1 * q.1).sum := by
          simpa using sum_map_push (fun q => q.1 * q.1) pre (a, b)
        have h5 : (pre.map fun q => q.2 * q.2).sum + b * b
            = ((pre ++ [(a, b)]).map fun q => q.2 * q.2).sum := by
          simpa using sum_map_push (fun q => q.2 * q.2) pre (a, b)
        have hlast : lastN w (pre ++ [(a, b)]) = pre ++ [(a, b)] :=
          lastN_of_le _ _ (by simp; omega)
        have hc : pre.length + 1 = (pre ++ [(a, b)]).length := by simp
        rw [hlast, h1, h2, h3, h4, h5, hc, ih (pre ++ [(a, b)]) (by simp; omega)]
      · have hlen : pre.length = w := le_antisymm hpre hge
        rw [if_pos (by omega)]
        rcases pre with _ | ⟨q0, qs⟩
        · exfalso
          simp at hlen
          omega
        · have hqs : qs.length + 1 = w := by simpa using hlen
          simp only [List.cons_append, List.headD_cons, List.tail_cons]
          have h1 : (((q0 :: qs).map Prod.fst).sum + a) - q0.1
              = ((qs ++ [(a, b)]).map Prod.fst).sum := by
            simpa using sum_map_push_pop Prod.fst q0 qs (a, b)
          have h2 : (((q0 :: qs).map Prod.snd).sum + b) - q0.2
              = ((qs ++ [(a, b)]).map Prod.snd).sum := by
            simpa using sum_map_push_pop Prod.snd q0 qs (a, b)
          have h3 : (((q0 :: qs).map fun q => q.1 * q.2).sum + a * b) - q0.1 * q0.2
              = ((qs ++ [(a, b)]).map fun q => q.1 * q.2).sum := by
            simpa using sum_map_push_pop (fun q => q.1 * q.2) q0 qs (a, b)
          have h4 : (((q0 :: qs).map fun q => q.1 * q.1).sum + a * a) - q0.1 * q0.1
              = ((qs ++ [(a, b)]).map fun q => q.1 * q.1).sum := by
            simpa using sum_map_push_pop (fun q => q.1 * q.1) q0 qs (a, b)
          have h5 : (((q0 :: qs).map fun q => q.2 * q.2).sum + b * b) - q0.2 * q0.2
              = ((qs ++ [(a, b)]).map fun q => q.2 * q.2).sum := by
            simpa using sum_map_push_pop (fun q => q.2 * q.2) q0 qs (a, b)
          have hlast : lastN w (q0 :: (qs ++ [(a, b)])) = qs ++ [(a, b)] := by
            rw [lastN_cons w q0 (qs ++ [(a, b)]) (by simp; omega),
              lastN_of_le w (qs ++ [(a, b)]) (by simp; omega)]
          have hc : (q0 :: qs).length = (qs ++ [(a, b)]).length := by simp
          rw [h1, h2, h3, h4, h5, hlast, hc, ih (qs ++ [(a, b)]) (by simp; omega)]

theorem corrSpecGo_getD_valid (w : ℕ) :
    ∀ (input : List (F × F)) (pre : List (ℚ × ℚ)) (j : ℕ) (ab : ℚ × ℚ),
      pre.length ≤ w → j < input.length →
      toPair? (input.getD j (F.nan, F.nan)) = some ab →
      (corrSpecGo w pre input).getD j F.nan =
        corrOutV w (lastN w (pre ++ (input.take (j+1)).filterMap toPair?)) := by
  intro input
  induction input with
  | nil => intro pre j ab _ hj _; simp at hj
  | cons p rest ih =>
    intro pre j ab hpre hj hab
    rcases j with _ | j
    · rw [List.getD_cons_zero] at hab
      rw [corrSpecGo_valid w pre p ab rest hab, List.getD_cons_zero]
      have : (List.take 1 (p :: rest)).filterMap toPair? = [ab] := by
        simp [List.filterMap_cons, hab]
      rw [this]
    · rw [List.getD_cons_succ] at hab
      rcases h : toPair? p with _ | ab0
      · rw [corrSpecGo_skip w pre p rest h, List.getD_cons_succ,
          ih pre j ab hpre (by simp at hj; omega) hab]
        have : pre ++ (rest.take (j+1)).filterMap toPair?
            = pre ++ ((p :: rest).take (j+1+1)).filterMap toPair? := by
          simp [List.filterMap_cons, h]
        rw [this]
      · rw [corrSpecGo_valid w pre p ab0 rest h, List.getD_cons_succ,
          ih (lastN w (pre ++ [ab0])) j ab (by rw [lastN_length]; omega)
            (by simp at hj; omega) hab, lastN_append_lastN]
        have : (pre ++ [ab0]) ++ (rest.take (j+1)).filterMap toPair?
            = pre ++ ((p :: rest).take (j+1+1)).filterMap toPair? := by
          simp [List.filterMap_cons, h]
        rw [this]

theorem corrSpecGo_getD_skip (w : ℕ) :
    ∀ (input : List (F × F)) (pre : List (ℚ × ℚ)) (j : ℕ), j < input.length →
      toPair? (input.getD j (F.nan, F.nan)) = none →
      (corrSpecGo w pre input).getD j F.nan = F.nan := by
  intro input
  induction input with
  | nil => intro pre j hj _; simp at hj
  | cons p rest ih =>
    intro pre j hj hab
    rcases j with _ | j
    · rw [List.getD_cons_zero] at hab
      rw [corrSpecGo_skip w pre p rest hab, List.getD_cons_zero]
    · rw [List.getD_cons_succ] at hab
      rcases h : toPair? p with _ | ab0
      · rw [corrSpecGo_skip w pre p rest h, List.getD_cons_succ,
          ih pre j (by simp at hj; omega) hab]
      · rw [corrSpecGo_valid w pre p ab0 rest h, List.getD_cons_succ,
          ih (lastN w (pre ++ [ab0])) j (by simp at hj; omega) hab]

theorem getD_range_map (f : ℕ → F) (n i : ℕ) (h : i < n) :
    ((List.range n).map f).getD i F.nan = f i := by
  rw [List.getD_eq_getElem?_getD, List.getElem?_map, List.getElem?_range h]
  rfl

theorem filterMap_toRat_map_fin (l : List ℚ) :
    (l.map F.fin).filterMap F.toRat? = l := by
  induction l with
  | nil => rfl
  | cons a t ih => simp [List.filterMap_cons, F.toRat?, ih]

theorem filterMap_toPair_map_fin (l : List (ℚ × ℚ)) :
    (l.map fun q => (F.fin q.1, F.fin q.2)).filterMap toPair? = l := by
  induction l with
  | nil => rfl
  | cons a t ih => simp [List.filterMap_cons, toPair?, ih]

theorem length_take_succ_of_lt {α : Type} (l : List α) (i : ℕ) (h : i < l.length) :
    (l.take (i+1)).length = i + 1 := by
  rw [List.length_take]
  omega

/-- The slice `s![start..=i]` taken by `rolling_rank` is the trailing window of
(up to) `w` elements of the first `i+1` elements. -/
theorem slice_eq_lastN {α : Type} (data : List α) (i w : ℕ) (hw : 1 ≤ w)
    (hi : i < data.length) :
    (data.drop (i - (w - 1))).take (i - (i - (w - 1)) + 1)
      = lastN w (data.take (i+1)) := by
  rw [lastN, length_take_succ_of_lt data i hi, List.drop_take]
  have e1 : i - (w - 1) = i + 1 - w := by omega
  rw [e1]
  have e2 : i - (i + 1 - w) + 1 = i + 1 - (i + 1 - w) := by omega
  rw [e2]

/-- The element at index `i` is the last element of any nonempty trailing
window of the first `i+1` elements. -/
theorem getD_of_lastN_take {α : Type} (d : α) (data : List α) (i w : ℕ)
    (ys : List α) (y : α) (hi : i < data.length)
    (h : lastN w (data.take (i+1)) = ys ++ [y]) :
    data.getD i d = y := by
  have hTlen : (data.take (i+1)).length = i + 1 := length_take_succ_of_lt data i hi
  have hAlen : ((data.take (i+1)).take ((data.take (i+1)).length - w)).length
      = (data.take (i+1)).length - w := by
    rw [List.length_take]
    omega
  have hsplit : (data.take (i+1)).take ((data.take (i+1)).length - w) ++ (ys ++ [y])
      = data.take (i+1) := by
    rw [← h, lastN, List.take_append_drop]
  have h1 : (data.take (i+1)).length - w + (ys.length + 1) = i + 1 := by
    have h2 := congrArg List.length hsplit
    rw [List.length_append, hAlen, List.length_append] at h2
    simp at h2
    omega
  have e1 : data[i]? = (data.take (i+1))[i]? := by
    rw [List.getElem?_take, if_pos (by omega)]
  rw [List.getD_eq_getElem?_getD, e1, ← hsplit,
    List.getElem?_append_right (by rw [hAlen]; omega), hAlen]
  have e2 : i - ((data.take (i+1)).length - w) = ys.length := by omega
  rw [e2, List.getElem?_concat_length]
  rfl

/-- If the trailing `w` elements of a streamed prefix are all finite, they are
exactly the trailing `w` valid samples of that prefix. -/
theorem lastN_filterMap_of_finite_window (w : ℕ) (T : List F) (l : List ℚ)
    (h : lastN w T = l.map F.fin) (hlen : l.length = w) :
    lastN w (T.filterMap F.toRat?) = l := by
  have hsplit : T.take (T.length - w) ++ l.map F.fin = T := by
    rw [← h, lastN, List.take_append_drop]
  rw [← hsplit, List.filterMap_append, filterMap_toRat_map_fin,
    lastN_append_right w _ l hlen]

/-- Pair version of `lastN_filterMap_of_finite_window` for the correlation. -/
theorem lastN_filterMap_of_finite_window_pair (w : ℕ) (T : List (F × F))
    (l : List (ℚ × ℚ)) (h : lastN w T = l.map fun q => (F.fin q.1, F.fin q.2))
    (hlen : l.length = w) :
    lastN w (T.filterMap toPair?) = l := by
  have hsplit : T.take (T.length - w) ++ (l.map fun q => (F.fin q.1, F.fin q.2)) = T := by
    rw [← h, lastN, List.take_append_drop]
  rw [← hsplit, List.filterMap_append, filterMap_toPair_map_fin,
    lastN_append_right w _ l hlen]

theorem sum_sq_dev (l : List ℚ) (m : ℚ) :
    (l.map fun x => (x - m) * (x - m)).sum
      = (l.map fun x => x * x).sum - 2 * m * l.sum + l.length * (m * m) := by
  induction l with
  | nil => simp
  | cons a t ih =>
    simp only [List.map_cons, List.sum_cons, List.length_cons, ih]
    push_cast
    ring

/-- The biased variance `sum_sq/n - mean^2` computed by the source equals the
average squared deviation from the mean, hence is nonnegative and vanishes
exactly on constant windows. -/
theorem variance_as_dev (l : List ℚ) (h : l.length ≠ 0) :
    (l.map fun x => x * x).sum / (l.length : ℚ)
        - (l.sum / l.length) * (l.sum / l.length)
      = (l.map fun x => (x - l.sum / l.length) * (x - l.sum / l.length)).sum
          / l.length := by
  have hn : (l.length : ℚ) ≠ 0 := Nat.cast_ne_zero.mpr h
  rw [sum_sq_dev]
  field_simp
  ring

theorem variance_pos_of_not_allEq (l : List ℚ) (h0 : l.length ≠ 0) (h : ¬ allEq l) :
    0 < (l.map fun x => x * x).sum / (l.length : ℚ)
        - (l.sum / l.length) * (l.sum / l.length) := by
  rw [variance_as_dev l h0]
  apply div_pos
  · have hex : ∃ c ∈ l, c ≠ l.sum / l.length := by
      by_contra hc
      push_neg at hc
      exact h (fun a ha b hb => by rw [hc a ha, hc b hb])
    rcases hex with ⟨c, hc, hcm⟩
    have h1 : (0:ℚ) < (c - l.sum / l.length) * (c - l.sum / l.length) :=
      mul_self_pos.mpr (sub_ne_zero.mpr hcm)
    have h2 : (c - l.sum / l.length) * (c - l.sum / l.length)
        ≤ (l.map fun x => (x - l.sum / l.length) * (x - l.sum / l.length)).sum := by
      refine List.single_le_sum ?_ _ (List.mem_map_of_mem _ hc)
      intro x hx
      rcases List.mem_map.mp hx with ⟨y, _, rfl⟩
      exact mul_self_nonneg _
    linarith
  · exact_mod_cast Nat.pos_of_ne_zero h0

theorem variance_nonpos_of_allEq (l : List ℚ) (h : allEq l) :
    (l.map fun x => x * x).sum / (l.length : ℚ)
        - (l.sum / l.length) * (l.sum / l.length) ≤ 0 := by
  rcases l with _ | ⟨a, t⟩
  · simp
  · have hrep : a :: t = List.replicate (a :: t).length a :=
      List.eq_replicate_of_mem (fun b hb => h b hb a (by simp))
    rw [hrep, List.map_replicate, List.sum_replicate, List.sum_replicate,
      List.length_replicate, nsmul_eq_mul, nsmul_eq_mul]
    apply le_of_eq
    have hn : (((a :: t).length : ℕ) : ℚ) ≠ 0 := by
      rw [Nat.cast_ne_zero]
      simp
    field_simp

theorem stdOutV_nan_of_short (w : ℕ) (V : List ℚ) (h : V.length < w) :
    stdOutV w V = F.nan := by
  rw [stdOutV, stdEmit, if_pos h]

theorem corrOutV_nan_of_short (w : ℕ) (V : List (ℚ × ℚ)) (h : V.length < w) :
    corrOutV w V = F.nan := by
  rw [corrOutV, corrEmit, if_pos h]

/-- A window whose valid samples are all equal yields the sentinel from the
rolling-std emission (zero variance), never `0.0`. -/
theorem stdOutV_nan_of_allEq (w : ℕ) (V : List ℚ) (h : allEq V) :
    stdOutV w V = F.nan := by
  simp only [stdOutV, stdEmit]
  split
  · rfl
  · rw [if_pos (variance_nonpos_of_allEq V h)]

/-- A full window of valid samples that are not all equal yields a finite
value from the rolling-std emission. -/
theorem stdOutV_isFinite_of (w : ℕ) (V : List ℚ) (hlen : V.length = w)
    (h : ¬ allEq V) : (stdOutV w V).isFinite = true := by
  have h0 : V.length ≠ 0 := by
    intro h0
    apply h
    rw [List.length_eq_zero] at h0
    subst h0
    intro a ha
    simp at ha
  simp only [stdOutV, stdEmit]
  rw [if_neg (by omega), if_neg (not_le.mpr (variance_pos_of_not_allEq V h0 h))]
  rfl

/-- A full window of valid pairs with non-constant first and second coordinates
yields a finite value from the rolling-correlation emission. -/
theorem corrOutV_isFinite_of (w : ℕ) (V : List (ℚ × ℚ)) (hlen : V.length = w)
    (hx : ¬ allEq (V.map Prod.fst)) (hy : ¬ allEq (V.map Prod.snd)) :
    (corrOutV w V).isFinite = true := by
  have h0 : V.length ≠ 0 := by
    intro h0
    apply hx
    rw [List.length_eq_zero] at h0
    subst h0
    intro a ha
    simp at ha
  have hvx : 0 < (V.map fun q => q.1 * q.1).sum / ((V.length : ℕ) : ℚ)
      - ((V.map Prod.fst).sum / ((V.length : ℕ) : ℚ))
        * ((V.map Prod.fst).sum / ((V.length : ℕ) : ℚ)) := by
    have hv := variance_pos_of_not_allEq (V.map Prod.fst) (by simpa using h0) hx
    simpa [List.map_map, Function.comp] using hv
  have hvy : 0 < (V.map fun q => q.2 * q.2).sum / ((V.length : ℕ) : ℚ)
      - ((V.map Prod.snd).sum / ((V.length : ℕ) : ℚ))
        * ((V.map Prod.snd).sum / ((V.length : ℕ) : ℚ)) := by
    have hv := variance_pos_of_not_allEq (V.map Prod.snd) (by simpa using h0) hy
    simpa [List.map_map, Function.comp] using hv
  simp only [corrOutV, corrEmit]
  rw [if_neg (by omega), if_neg (by
    rw [not_or]
    exact ⟨not_le.mpr hvx, not_le.mpr hvy⟩)]
  rfl

theorem meanEmit_full (w : ℕ) (hw : 1 ≤ w) (S : ℚ) :
    meanEmit w (F.fin S) w = F.fin (S / (w : ℚ)) := by
  rw [meanEmit, if_neg (lt_irrefl w), F.div_fin S w (Nat.cast_ne_zero.mpr (by omega))]

theorem rolling_mean_ok (data : List F) (w : ℕ) (hw : 1 ≤ w) :
    rolling_mean data w = .ok (rollingMeanGo w data [] (F.fin 0) 0) := by
  rw [rolling_mean, if_neg (by omega)]

theorem rolling_mean_eq_spec (q : List ℚ) (w : ℕ) (hw : 1 ≤ w) :
    rolling_mean (q.map F.fin) w = .ok (meanSpecGo w [] q) := by
  rw [rolling_mean_ok _ _ hw]
  congr 1
  have h := rollingMeanGo_sim w hw q [] (by simp)
  simpa using h

theorem rolling_std_ok (data : List F) (w : ℕ) (hw : 2 ≤ w) :
    rolling_std data w = .ok (rollingStdGo w data [] 0 0 0) := by
  rw [rolling_std, if_neg (by omega)]

theorem rolling_std_eq_spec (data : List F) (w : ℕ) (hw : 2 ≤ w) :
    rolling_std data w = .ok (stdSpecGo w [] data) := by
  rw [rolling_std_ok _ _ hw]
  congr 1
  have h := rollingStdGo_sim w (by omega) data [] (by simp)
  simpa using h

theorem rolling_correlation_ok (x y : List F) (w : ℕ) (hw : 2 ≤ w) :
    rolling_correlation x y w = .ok (corrGo w (x.zip y) [] 0 0 0 0 0 0) := by
  rw [rolling_correlation, if_neg (by omega)]

theorem rolling_correlation_eq_spec (x y : List F) (w : ℕ) (hw : 2 ≤ w) :
    rolling_correlation x y w = .ok (corrSpecGo w [] (x.zip y)) := by
  rw [rolling_correlation_ok x y w hw]
  congr 1
  have h := corrGo_sim w (by omega) (x.zip y) [] (by simp)
  simpa using h

theorem pct_change_ok (data : List F) (p : ℕ) (hp : 1 ≤ p) :
    pct_change data p = .ok ((List.range data.length).map (pctAt data p)) := by
  rw [pct_change, if_neg (by omega)]

theorem rolling_rank_ok (data : List F) (w : ℕ) (hw : 2 ≤ w) :
    rolling_rank data w = .ok ((List.range data.length).map (rankAt data w)) := by
  rw [rolling_rank, if_neg (by omega)]

theorem getD_mem {α : Type} (l : List α) (i : ℕ) (d : α) (h : i < l.length) :
    l.getD i d ∈ l := by
  rw [List.getD_eq_getElem?_getD, List.getElem?_eq_getElem h]
  exact List.getElem_mem h

theorem getD_replicate {α : Type} (n i : ℕ) (a d : α) (h : i < n) :
    (List.replicate n a).getD i d = a := by
  rw [List.getD_eq_getElem?_getD, List.getElem?_replicate]
  simp [h]

theorem getD_zipWith (f : F → F → F) (l1 l2 : List F) (i : ℕ) (d : F)
    (h1 : i < l1.length) (h2 : i < l2.length) :
    (List.zipWith f l1 l2).getD i d = f (l1.getD i d) (l2.getD i d) := by
  rw [List.getD_eq_getElem?_getD, List.getD_eq_getElem?_getD,
    List.getD_eq_getElem?_getD, List.getElem?_zipWith,
    List.getElem?_eq_getElem h1, List.getElem?_eq_getElem h2]
  rfl

theorem F.add_isFinite (x y : F) (hx : x.isFinite = true) (hy : y.isFinite = true) :
    (x + y).isFinite = true := by
  cases x <;> cases y <;> simp_all [F.isFinite]
  rfl

theorem pct_change_length (data : List F) (p : ℕ) (r : List F)
    (h : pct_change data p = .ok r) : r.length = data.length := by
  by_cases hp : p < 1
  · rw [pct_change, if_pos hp] at h
    exact Except.noConfusion h
  · rw [pct_change_ok data p (by omega)] at h
    rw [← Except.ok.inj h]
    simp

theorem rolling_rank_length (data : List F) (w : ℕ) (r : List F)
    (h : rolling_rank data w = .ok r) : r.length = data.length := by
  by_cases hw : w < 2
  · rw [rolling_rank, if_pos hw] at h
    exact Except.noConfusion h
  · rw [rolling_rank_ok data w (by omega)] at h
    rw [← Except.ok.inj h]
    simp

theorem rolling_mean_length (data : List F) (w : ℕ) (r : List F)
    (h : rolling_mean data w = .ok r) : r.length = data.length := by
  by_cases hw : w < 1
  · rw [rolling_mean, if_pos hw] at h
    exact Except.noConfusion h
  · rw [rolling_mean_ok data w (by omega)] at h
    rw [← Except.ok.inj h]
    exact rollingMeanGo_length w data [] (F.fin 0) 0

theorem rolling_std_length (data : List F) (w : ℕ) (r : List F)
    (h : rolling_std data w = .ok r) : r.length = data.length := by
  by_cases hw : w < 2
  · rw [rolling_std, if_pos hw] at h
    exact Except.noConfusion h
  · rw [rolling_std_ok data w (by omega)] at h
    rw [← Except.ok.inj h]
    exact rollingStdGo_length w data [] 0 0 0

theorem rolling_correlation_length (x y : List F) (w : ℕ) (r : List F)
    (hxy : y.length = x.length) (h : rolling_correlation x y w = .ok r) :
    r.length = x.length := by
  by_cases hw : w < 2
  · rw [rolling_correlation, if_pos hw] at h
    exact Except.noConfusion h
  · rw [rolling_correlation_ok x y w (by omega)] at h
    rw [← Except.ok.inj h, corrGo_length]
    rw [List.length_zip, hxy, Nat.min_self]

theorem ok_bind {ε α β : Type} (a : α) (f : α → Except ε β) :
    (Except.ok a : Except ε α) >>= f = f a := rfl

theorem error_bind {ε α β : Type} (e : ε) (f : α → Except ε β) :
    (Except.error e : Except ε α) >>= f = Except.error e := rfl

theorem rsf_weight_isFinite (wt : ℚ) (x : F) :
    (if x.isNan ∨ x.isInfinite then F.fin 0 else x * F.fin wt).isFinite = true := by
  cases x
  case fin q =>
    rw [if_neg (by simp [F.isNan, F.isInfinite]), F.mul_fin]
    rfl
  all_goals rw [if_pos (by simp [F.isNan, F.isInfinite])]; rfl

theorem zipWith_add_isFinite :
    ∀ (l1 l2 : List F), (∀ a ∈ l1, a.isFinite = true) → (∀ a ∈ l2, a.isFinite = true) →
      ∀ a ∈ List.zipWith (fun a b => a + b) l1 l2, a.isFinite = true := by
  intro l1
  induction l1 with
  | nil => intro l2 _ _ a ha; simp at ha
  | cons x xs ih =>
    intro l2 h1 h2 a ha
    cases l2 with
    | nil => simp at ha
    | cons y ys =>
      rw [List.zipWith_cons_cons] at ha
      rcases List.mem_cons.mp ha with rfl | ha2
      · exact F.add_isFinite x y (h1 x (by simp)) (h2 y (by simp))
      · exact ih ys (fun b hb => h1 b (by simp [hb])) (fun b hb => h2 b (by simp [hb])) a ha2

theorem getD_map (g : F → F) (l : List F) (i : ℕ) (d d' : F) (h : i < l.length) :
    (l.map g).getD i d = g (l.getD i d') := by
  rw [List.getD_eq_getElem?_getD, List.getD_eq_getElem?_getD, List.getElem?_map,
    List.getElem?_eq_getElem h]
  rfl

theorem rsfLoop_length (prices : List F) (lb : ℕ) :
    ∀ (tws : List (ℕ × ℚ)) (res r : List F), rsfLoop prices lb tws res = .ok r →
      res.length = prices.length → r.length = prices.length := by
  intro tws
  induction tws with
  | nil =>
    intro res r h hres
    rw [← Except.ok.inj h]
    exact hres
  | cons tw rest ih =>
    intro res r h hres
    rw [rsfLoop] at h
    rcases h1 : pct_change prices tw.1 with e | M
    · rw [h1, error_bind] at h
      exact Except.noConfusion h
    · rw [h1, ok_bind] at h
      rcases h2 : rolling_rank M lb with e | K
      · rw [h2, error_bind] at h
        exact Except.noConfusion h
      · rw [h2, ok_bind] at h
        have hM := pct_change_length prices tw.1 M h1
        have hK := rolling_rank_length M lb K h2
        refine ih _ r h ?_
        simp [List.length_zipWith, hres, hK, hM]

theorem rsfLoop_isFinite (prices : List F) (lb : ℕ) :
    ∀ (tws : List (ℕ × ℚ)) (res r : List F), rsfLoop prices lb tws res = .ok r →
      (∀ a ∈ res, a.isFinite = true) → ∀ a ∈ r, a.isFinite = true := by
  intro tws
  induction tws with
  | nil =>
    intro res r h hres
    rw [← Except.ok.inj h]
    exact hres
  | cons tw rest ih =>
    intro res r h hres
    rw [rsfLoop] at h
    rcases h1 : pct_change prices tw.1 with e | M
    · rw [h1, error_bind] at h
      exact Except.noConfusion h
    · rw [h1, ok_bind] at h
      rcases h2 : rolling_rank M lb with e | K
      · rw [h2, error_bind] at h
        exact Except.noConfusion h
      · rw [h2, ok_bind] at h
        refine ih _ r h ?_
        apply zipWith_add_isFinite _ _ hres
        intro a ha
        rcases List.mem_map.mp ha with ⟨x, _, rfl⟩
        exact rsf_weight_isFinite tw.2 x

theorem rsfLoop_warmup (prices : List F) (lb : ℕ) :
    ∀ (tws : List (ℕ × ℚ)) (res r : List F) (i : ℕ),
      rsfLoop prices lb tws res = .ok r → res.length = prices.length →
      i < prices.length → i + 1 < lb → res.getD i F.nan = F.fin 0 →
      r.getD i F.nan = F.fin 0 := by
  intro tws
  induction tws with
  | nil =>
    intro res r i h _ _ _ hres0
    rw [← Except.ok.inj h]
    exact hres0
  | cons tw rest ih =>
    intro res r i h hres hi hilb hres0
    rw [rsfLoop] at h
    rcases h1 : pct_change prices tw.1 with e | M
    · rw [h1, error_bind] at h
      exact Except.noConfusion h
    · rw [h1, ok_bind] at h
      rcases h2 : rolling_rank M lb with e | K
      · rw [h2, error_bind] at h
        exact Except.noConfusion h
      · rw [h2, ok_bind] at h
        have hM := pct_change_length prices tw.1 M h1
        have hK := rolling_rank_length M lb K h2
        have hKeq : K = (List.range M.length).map (rankAt M lb) := by
          by_cases hlb2 : lb < 2
          · rw [rolling_rank, if_pos hlb2] at h2
            exact Except.noConfusion h2
          · rw [rolling_rank_ok M lb (by omega)] at h2
            exact (Except.ok.inj h2).symm
        have hKi : K.getD i F.nan = F.nan := by
          rw [hKeq, getD_range_map (rankAt M lb) M.length i (by omega), rankAt,
            if_pos (by omega)]
        refine ih _ r i h ?_ hi hilb ?_
        · simp [List.length_zipWith, hres, hK, hM]
        · rw [getD_zipWith _ _ _ i F.nan (by omega)
            (by rw [List.length_map]; omega), hres0,
            getD_map _ _ i F.nan F.nan (by omega), hKi,
            if_pos (by simp [F.isNan]), F.add_fin]
          norm_num

theorem rsfLoop_ok (prices : List F) (lb : ℕ) (hlb : 2 ≤ lb) :
    ∀ (tws : List (ℕ × ℚ)) (res : List F), (∀ tw ∈ tws, 1 ≤ tw.1) →
      ∃ r, rsfLoop prices lb tws res = .ok r := by
  intro tws
  induction tws with
  | nil => intro res _; exact ⟨res, rfl⟩
  | cons tw rest ih =>
    intro res hall
    rw [rsfLoop, pct_change_ok prices tw.1 (hall tw (by simp)), ok_bind,
      rolling_rank_ok _ lb (by omega), ok_bind]
    exact ih _ (fun tw2 htw2 => hall tw2 (by simp [htw2]))

theorem rsf_err (prices : List F) (lb : ℕ) (h : lb < 3) :
    relative_strength_factor prices lb
      = .error (.invalidPeriod "Period must be positive") := by
  rw [relative_strength_factor, rsfLoop]
  have h0 : lb / 3 = 0 := by omega
  rw [h0, pct_change, if_pos (by omega), error_bind]

theorem rsf_ok (prices : List F) (lb : ℕ) (h : 3 ≤ lb) :
    ∃ r, relative_strength_factor prices lb = .ok r := by
  rw [relative_strength_factor]
  apply rsfLoop_ok prices lb (by omega)
  intro tw htw
  simp only [List.mem_cons, List.not_mem_nil, or_false] at htw
  rcases htw with h1 | h1 | h1
  · rw [h1]
    show 1 ≤ lb / 3
    omega
  · rw [h1]
    show 1 ≤ lb
    omega
  · rw [h1]
    show 1 ≤ lb * 2
    omega

/-- Claim C2: rolling_mean and pct_change return an InvalidWindow error iff
their window/periods parameter is < 1, and rolling_std, rolling_rank and
rolling_correlation return an InvalidWindow error iff their window is < 2;
for any parameter meeting its minimum each returns Ok with a result series. -/
theorem claim_C2 : ∀ (data x y : List F) (w : ℕ),
    ((∃ msg, rolling_mean data w = .error (.invalidPeriod msg)) ↔ w < 1) ∧
    ((∃ r, rolling_mean data w = .ok r) ↔ 1 ≤ w) ∧
    ((∃ msg, pct_change data w = .error (.invalidPeriod msg)) ↔ w < 1) ∧
    ((∃ r, pct_change data w = .ok r) ↔ 1 ≤ w) ∧
    ((∃ msg, rolling_std data w = .error (.invalidPeriod msg)) ↔ w < 2) ∧
    ((∃ r, rolling_std data w = .ok r) ↔ 2 ≤ w) ∧
    ((∃ msg, rolling_rank data w = .error (.invalidPeriod msg)) ↔ w < 2) ∧
    ((∃ r, rolling_rank data w = .ok r) ↔ 2 ≤ w) ∧
    ((∃ msg, rolling_correlation x y w = .error (.invalidPeriod msg)) ↔ w < 2) ∧
    ((∃ r, rolling_correlation x y w = .ok r) ↔ 2 ≤ w) := by
  intro data x y w
  refine ⟨⟨?_, ?_⟩, ⟨?_, ?_⟩, ⟨?_, ?_⟩, ⟨?_, ?_⟩, ⟨?_, ?_⟩, ⟨?_, ?_⟩, ⟨?_, ?_⟩,
    ⟨?_, ?_⟩, ⟨?_, ?_⟩, ⟨?_, ?_⟩⟩
  · rintro ⟨msg, hmsg⟩
    by_contra hw
    rw [rolling_mean_ok data w (by omega)] at hmsg
    exact Except.noConfusion hmsg
  · intro hw
    exact ⟨_, by rw [rolling_mean, if_pos hw]⟩
  · rintro ⟨r, hr⟩
    by_contra hw
    rw [rolling_mean, if_pos (by omega)] at hr
    exact Except.noConfusion hr
  · intro hw
    exact ⟨_, rolling_mean_ok data w hw⟩
  · rintro ⟨msg, hmsg⟩
    by_contra hw
    rw [pct_change_ok data w (by omega)] at hmsg
    exact Except.noConfusion hmsg
  · intro hw
    exact ⟨_, by rw [pct_change, if_pos hw]⟩
  · rintro ⟨r, hr⟩
    by_contra hw
    rw [pct_change, if_pos (by omega)] at hr
    exact Except.noConfusion hr
  · intro hw
    exact ⟨_, pct_change_ok data w hw⟩
  · rintro ⟨msg, hmsg⟩
    by_contra hw
    rw [rolling_std_ok data w (by omega)] at hmsg
    exact Except.noConfusion hmsg
  · intro hw
    exact ⟨_, by rw [rolling_std, if_pos hw]⟩
  · rintro ⟨r, hr⟩
    by_contra hw
    rw [rolling_std, if_pos (by omega)] at hr
    exact Except.noConfusion hr
  · intro hw
    exact ⟨_, rolling_std_ok data w hw⟩
  · rintro ⟨msg, hmsg⟩
    by_contra hw
    rw [rolling_rank_ok data w (by omega)] at hmsg
    exact Except.noConfusion hmsg
  · intro hw
    exact ⟨_, by rw [rolling_rank, if_pos hw]⟩
  · rintro ⟨r, hr⟩
    by_contra hw
    rw [rolling_rank, if_pos (by omega)] at hr
    exact Except.noConfusion hr
  · intro hw
    exact ⟨_, rolling_rank_ok data w hw⟩
  · rintro ⟨msg, hmsg⟩
    by_contra hw
    rw [rolling_correlation_ok x y w (by omega)] at hmsg
    exact Except.noConfusion hmsg
  · intro hw
    exact ⟨_, by rw [rolling_correlation, if_pos hw]⟩
  · rintro ⟨r, hr⟩
    by_contra hw
    rw [rolling_correlation, if_pos (by omega)] at hr
    exact Except.noConfusion hr
  · intro hw
    exact ⟨_, rolling_correlation_ok x y w hw⟩

/-- Claim C9: relative_strength_factor fails with InvalidWindow iff
lookback < 3 (for lookback < 3 the first timeframe lookback/3 is 0 and the
constituent pct_change call fails); for lookback >= 3 the call succeeds. -/
theorem claim_C9 : ∀ (prices : List F) (lb : ℕ),
    ((∃ msg, relative_strength_factor prices lb = .error (.invalidPeriod msg))
      ↔ lb < 3)
    ∧ ((∃ r, relative_strength_factor prices lb = .ok r) ↔ 3 ≤ lb) := by
  intro prices lb
  refine ⟨⟨?_, ?_⟩, ⟨?_, ?_⟩⟩
  · rintro ⟨msg, hmsg⟩
    by_contra hlb
    rcases rsf_ok prices lb (by omega) with ⟨r, hr⟩
    rw [hr] at hmsg
    exact Except.noConfusion hmsg
  · intro hlb
    exact ⟨_, rsf_err prices lb hlb⟩
  · rintro ⟨r, hr⟩
    by_contra hlb
    rw [rsf_err prices lb (by omega)] at hr
    exact Except.noConfusion hr
  · intro hlb
    exact rsf_ok prices lb hlb

/-- Claim C7: for rolling_std with window w >= 2, whenever the values
accumulated in the window (the trailing w valid samples) are all equal, the
output is the sentinel, not 0.0; in particular rolling_std([1,1,1,1], 2) is
the sentinel at every position. -/
theorem claim_C7 :
    (∀ (data : List F) (w : ℕ) (r : List F) (i : ℕ), 2 ≤ w →
      rolling_std data w = Except.ok r → i < data.length →
      allEq (lastN w ((data.take (i+1)).filterMap F.toRat?)) →
      r.getD i F.nan = F.nan)
    ∧ rolling_std [F.fin 1, F.fin 1, F.fin 1, F.fin 1] 2
        = Except.ok [F.nan, F.nan, F.nan, F.nan] := by
  constructor
  · intro data w r i hw hok hi hall
    have hr : r = stdSpecGo w [] data :=
      Except.ok.inj (hok.symm.trans (rolling_std_eq_spec data w hw))
    subst hr
    rcases hv : data.getD i F.nan with q | _ | _ | _
    · rw [stdSpecGo_getD_fin w data [] i q (by simp) hi hv]
      simp only [List.nil_append]
      exact stdOutV_nan_of_allEq w _ hall
    · exact stdSpecGo_getD_nonfin w data [] i hi (by rw [hv]; rfl)
    · exact stdSpecGo_getD_nonfin w data [] i hi (by rw [hv]; rfl)
    · exact stdSpecGo_getD_nonfin w data [] i hi (by rw [hv]; rfl)
  · rw [rolling_std_ok _ 2 (by omega)]
    norm_num [rollingStdGo, stdEmit]

theorem claim_C7_witness :
    ([F.nan] : List F).getD 0 F.nan = F.nan ∧ 2 ≤ 2 :=
  ⟨claim_C7.1 [F.fin 5] 2 [F.nan] 0 (by decide)
    (by simp [rolling_std, rollingStdGo, stdEmit]) (by decide)
    (by decide), by decide⟩

/-- Claim C4: pct_change(x, p) at position i is the sentinel if i < p, or if
x[i-p] is non-finite or exactly zero, or if x[i] is non-finite; otherwise it
is (x[i] - x[i-p]) / x[i-p]; pct_change([10,20,15,30], 1) =
[NaN, 1.0, -0.25, 1.0]. -/
theorem claim_C4 :
    (∀ (data : List F) (p : ℕ), 1 ≤ p →
      ∃ r, pct_change data p = Except.ok r ∧ r.length = data.length ∧
        ∀ i, i < data.length →
          r.getD i F.nan =
            if i < p then F.nan
            else if (data.getD (i - p) F.nan).isFinite = false
                ∨ data.getD (i - p) F.nan = F.fin 0 then F.nan
            else if (data.getD i F.nan).isFinite = false then F.nan
            else (data.getD i F.nan - data.getD (i - p) F.nan)
              / data.getD (i - p) F.nan)
    ∧ pct_change [F.fin 10, F.fin 20, F.fin 15, F.fin 30] 1
        = Except.ok [F.nan, F.fin 1, F.fin (-(1/4) : ℚ), F.fin 1] := by
  constructor
  · intro data p hp
    refine ⟨_, pct_change_ok data p hp, by simp, ?_⟩
    intro i hi
    rw [getD_range_map _ _ _ hi, pctAt]
    rcases hprev : data.getD (i - p) F.nan with q | _ | _ | _ <;>
      rcases hcurr : data.getD i F.nan with q2 | _ | _ | _ <;>
        simp [hprev, hcurr, F.isNan, F.isInfinite, F.isFinite]
  · rw [pct_change_ok _ 1 (by omega)]
    have hr : List.range ([F.fin 10, F.fin 20, F.fin 15, F.fin 30] : List F).length
        = [0, 1, 2, 3] := by decide
    rw [hr]
    norm_num [pctAt, F.isNan, F.isInfinite, F.sub_fin, F.div_fin,
      List.getD_cons_zero, List.getD_cons_succ]

theorem claim_C4_witness :
    (1 ≤ 1) ∧
    (∃ r, pct_change [F.nan] 1 = Except.ok r ∧ r.length = ([F.nan] : List F).length ∧
      ∀ i, i < ([F.nan] : List F).length →
        r.getD i F.nan =
          if i < 1 then F.nan
          else if (([F.nan] : List F).getD (i - 1) F.nan).isFinite = false
              ∨ ([F.nan] : List F).getD (i - 1) F.nan = F.fin 0 then F.nan
          else if (([F.nan] : List F).getD i F.nan).isFinite = false then F.nan
          else (([F.nan] : List F).getD i F.nan - ([F.nan] : List F).getD (i - 1) F.nan)
            / ([F.nan] : List F).getD (i - 1) F.nan) :=
  ⟨by decide, claim_C4.1 [F.nan] 1 (by decide)⟩

theorem F.fin_add_pinf (a : ℚ) : F.fin a + F.pinf = F.pinf := rfl

theorem F.pinf_add_fin (a : ℚ) : F.pinf + F.fin a = F.pinf := rfl

theorem F.pinf_sub_pinf : F.pinf - F.pinf = F.nan := rfl

theorem F.nan_div (x : F) : F.nan / x = F.nan := by cases x <;> rfl

theorem F.pinf_div_fin (b : ℚ) (h : 0 ≤ b) : F.pinf / F.fin b = F.pinf := by
  show F.div _ _ = _
  simp [F.div, h]

/-- Counterexample to claim C1 as stated: with a non-finite input, the output
at a position whose trailing window is finite need not equal the trailing
window sum divided by w.  For rolling_mean([+inf, 1, 2], 2) the output at
position 2 is NaN (the running sum is tainted by inf - inf = NaN when the
infinity leaves the window), while the sum of the trailing 2 input values
divided by 2 is 3/2. -/
theorem claim_C1_cex :
    rolling_mean [F.pinf, F.fin 1, F.fin 2] 2 = Except.ok [F.nan, F.pinf, F.nan]
    ∧ (F.fin 1 + F.fin 2) / F.fin ((2 : ℕ) : ℚ) = F.fin (3/2)
    ∧ F.nan ≠ F.fin (3/2) := by
  refine ⟨?_, ?_, by simp⟩
  · rw [rolling_mean_ok _ 2 (by omega)]
    norm_num [rollingMeanGo, meanEmit, F.add_fin, F.fin_add_pinf, F.pinf_add_fin,
      F.pinf_sub_pinf, F.nan_div, F.pinf_div_fin, F.sub_fin]
  · rw [F.add_fin, F.div_fin _ _ (by norm_num)]
    norm_num

/-- Claim C1 (amended): rolling_mean(x, w) puts the sentinel at every
position i < w-1; when the input is entirely finite, every position
i >= w-1 equals the sum of the trailing w inputs divided by w; the
concrete scenario rolling_mean([1,2,3,4,5], 3) = [NaN, NaN, 2, 3, 4] holds.
(The original claim's formula for arbitrary non-finite inputs fails: see
the counterexample.) -/
theorem claim_C1 :
    (∀ (q : List ℚ) (w : ℕ), 1 ≤ w →
      ∃ r, rolling_mean (q.map F.fin) w = Except.ok r ∧ r.length = q.length ∧
        (∀ i, i < q.length → i + 1 < w → r.getD i F.nan = F.nan) ∧
        (∀ i, i < q.length → w ≤ i + 1 →
          r.getD i F.nan = F.fin ((lastN w (q.take (i+1))).sum / (w : ℚ))))
    ∧ rolling_mean [F.fin 1, F.fin 2, F.fin 3, F.fin 4, F.fin 5] 3
        = Except.ok [F.nan, F.nan, F.fin 2, F.fin 3, F.fin 4] := by
  constructor
  · intro q w hw
    refine ⟨meanSpecGo w [] q, rolling_mean_eq_spec q w hw, meanSpecGo_length w q [],
      ?_, ?_⟩
    · intro i hi hiw
      rw [meanSpecGo_getD w q [] i (by simp) hi]
      simp only [List.nil_append]
      rw [meanEmit, if_pos (by rw [lastN_length, List.length_take]; omega)]
    · intro i hi hwi
      rw [meanSpecGo_getD w q [] i (by simp) hi]
      simp only [List.nil_append]
      have hlen : (lastN w (q.take (i+1))).length = w := by
        rw [lastN_length, List.length_take]
        omega
      rw [hlen, meanEmit_full w hw]
  · rw [rolling_mean_ok _ 3 (by omega)]
    norm_num [rollingMeanGo, meanEmit, F.add_fin, F.sub_fin, F.div_fin]

theorem claim_C1_witness :
    (1 ≤ 1) ∧
    (∃ r, rolling_mean (([1, 2] : List ℚ).map F.fin) 1 = Except.ok r ∧
      r.length = ([1, 2] : List ℚ).length ∧
      (∀ i, i < ([1, 2] : List ℚ).length → i + 1 < 1 → r.getD i F.nan = F.nan) ∧
      (∀ i, i < ([1, 2] : List ℚ).length → 1 ≤ i + 1 →
        r.getD i F.nan
          = F.fin ((lastN 1 (([1, 2] : List ℚ).take (i+1))).sum / ((1 : ℕ) : ℚ)))) :=
  ⟨by decide, claim_C1.1 [1, 2] 1 (by decide)⟩

/-- Claim C3: for every input and every parameter on which the call succeeds,
the output series of each of the nine exposed functions has exactly the
length of its input series (the two-series functions are specified for
equal-length inputs). -/
theorem claim_C3 : ∀ (data x y prices high volume : List F) (w lb : ℕ),
    (∀ r, rolling_mean data w = .ok r → r.length = data.length) ∧
    (∀ r, rolling_std data w = .ok r → r.length = data.length) ∧
    (∀ r, pct_change data w = .ok r → r.length = data.length) ∧
    (∀ r, rolling_rank data w = .ok r → r.length = data.length) ∧
    (∀ r, y.length = x.length → rolling_correlation x y w = .ok r →
      r.length = x.length) ∧
    (∀ r, momentum_factor prices lb = .ok r → r.length = prices.length) ∧
    (∀ r, mean_reversion_factor prices lb = .ok r → r.length = prices.length) ∧
    (∀ r, relative_strength_factor prices lb = .ok r → r.length = prices.length) ∧
    (∀ r, volume.length = high.length → alpha101_factor_42 high volume = .ok r →
      r.length = high.length) := by
  intro data x y prices high volume w lb
  refine ⟨rolling_mean_length data w, rolling_std_length data w,
    pct_change_length data w, rolling_rank_length data w,
    fun r hxy h => rolling_correlation_length x y w r hxy h, ?_, ?_, ?_, ?_⟩
  · intro r h
    rw [momentum_factor] at h
    rcases h1 : pct_change prices 1 with e | returns
    · rw [h1, error_bind] at h
      exact Except.noConfusion h
    · rw [h1, ok_bind] at h
      rcases h2 : pct_change prices lb with e | momentum
      · rw [h2, error_bind] at h
        exact Except.noConfusion h
      · rw [h2, ok_bind] at h
        rcases h3 : rolling_std returns lb with e | vol
        · rw [h3, error_bind] at h
          exact Except.noConfusion h
        · rw [h3, ok_bind] at h
          rw [← Except.ok.inj h, List.length_map, List.length_zip,
            pct_change_length prices lb momentum h2,
            rolling_std_length returns lb vol h3,
            pct_change_length prices 1 returns h1, Nat.min_self]
  · intro r h
    rw [mean_reversion_factor] at h
    rcases h1 : rolling_mean prices lb with e | ma
    · rw [h1, error_bind] at h
      exact Except.noConfusion h
    · rw [h1, ok_bind] at h
      rcases h2 : rolling_std prices lb with e | std
      · rw [h2, error_bind] at h
        exact Except.noConfusion h
      · rw [h2, ok_bind] at h
        rw [← Except.ok.inj h, List.length_map, List.length_zip, List.length_zip,
          rolling_mean_length prices lb ma h1, rolling_std_length prices lb std h2,
          Nat.min_self, Nat.min_self]
  · intro r h
    rw [relative_strength_factor] at h
    exact rsfLoop_length prices lb _ _ r h (by simp)
  · intro r hvh h
    rw [alpha101_factor_42] at h
    rcases h1 : rolling_std high 10 with e | high_std
    · rw [h1, error_bind] at h
      exact Except.noConfusion h
    · rw [h1, ok_bind] at h
      rcases h2 : rolling_rank high_std 10 with e | vol_rank
      · rw [h2, error_bind] at h
        exact Except.noConfusion h
      · rw [h2, ok_bind] at h
        rcases h3 : rolling_correlation high volume 10 with e | vol_price_corr
        · rw [h3, error_bind] at h
          exact Except.noConfusion h
        · rw [h3, ok_bind] at h
          rw [← Except.ok.inj h, List.length_zipWith, List.length_map,
            List.length_map, rolling_rank_length high_std 10 vol_rank h2,
            rolling_std_length high 10 high_std h1,
            rolling_correlation_length high volume 10 vol_price_corr hvh h3,
            Nat.min_self]

theorem claim_C3_witness :
    ([F.nan, F.nan] : List F).length = ([F.nan, F.fin 2] : List F).length :=
  (claim_C3 [F.nan, F.fin 2] [] [] [] [] [] 5 0).1 [F.nan, F.nan] (by decide)

/-- Claim C10: every element of a successful relative_strength_factor result
is finite (non-finite ranks contribute 0 to the weighted sum), and warm-up
positions (where all three ranks are the sentinel) yield 0.0 rather than NaN. -/
theorem claim_C10 : ∀ (prices : List F) (lb : ℕ) (r : List F),
    relative_strength_factor prices lb = Except.ok r →
    (∀ i, i < r.length → (r.getD i F.nan).isFinite = true)
    ∧ (∀ i, i < r.length → i + 1 < lb → r.getD i F.nan = F.fin 0) := by
  intro prices lb r h
  rw [relative_strength_factor] at h
  have hlen : r.length = prices.length := rsfLoop_length prices lb _ _ r h (by simp)
  constructor
  · intro i hi
    refine rsfLoop_isFinite prices lb _ _ r h ?_ _ (getD_mem r i F.nan hi)
    intro a ha
    rw [List.eq_of_mem_replicate ha]
    rfl
  · intro i hi hilb
    exact rsfLoop_warmup prices lb _ _ r i h (by simp) (by omega) hilb
      (getD_replicate prices.length i (F.fin 0) F.nan (by omega))

theorem claim_C10_witness :
    ((∀ i, i < ([F.fin 0] : List F).length →
      (([F.fin 0] : List F).getD i F.nan).isFinite = true)
    ∧ (∀ i, i < ([F.fin 0] : List F).length → i + 1 < 3 →
      ([F.fin 0] : List F).getD i F.nan = F.fin 0)) :=
  claim_C10 [F.nan] 3 [F.fin 0]
    (by
      have h1 : List.range 1 = [0] := by decide
      norm_num [relative_strength_factor, rsfLoop, pct_change, pctAt,
        rolling_rank, rankAt, ok_bind, F.isNan, F.isInfinite, F.add_fin, h1])

/-- Claim C5: for rolling_std (and rolling_correlation), a non-finite input at
a step emits the sentinel while leaving the queue and running sums untouched;
every non-sentinel output is computed over exactly the last w valid samples,
and an output can be non-sentinel only once at least w valid samples have
been seen at or before that position. -/
theorem claim_C5 :
    (∀ (w : ℕ) (val : F) (rest : List F) (queue : List ℚ) (sum sumsq : ℚ)
      (count : ℕ), val.isFinite = false →
      rollingStdGo w (val :: rest) queue sum sumsq count
        = F.nan :: rollingStdGo w rest queue sum sumsq count)
    ∧ (∀ (w : ℕ) (p : F × F) (rest : List (F × F)) (queue : List (ℚ × ℚ))
      (sx sy sxy sxx syy : ℚ) (count : ℕ), toPair? p = none →
      corrGo w (p :: rest) queue sx sy sxy sxx syy count
        = F.nan :: corrGo w rest queue sx sy sxy sxx syy count)
    ∧ (∀ (data : List F) (w : ℕ) (r : List F) (i : ℕ), 2 ≤ w →
      rolling_std data w = Except.ok r → i < data.length →
      r.getD i F.nan ≠ F.nan →
      w ≤ ((data.take (i+1)).filterMap F.toRat?).length ∧
      r.getD i F.nan
        = stdOutV w (lastN w ((data.take (i+1)).filterMap F.toRat?)))
    ∧ (∀ (x y : List F) (w : ℕ) (r : List F) (i : ℕ), 2 ≤ w →
      y.length = x.length → rolling_correlation x y w = Except.ok r →
      i < x.length → r.getD i F.nan ≠ F.nan →
      w ≤ (((x.zip y).take (i+1)).filterMap toPair?).length ∧
      r.getD i F.nan
        = corrOutV w (lastN w (((x.zip y).take (i+1)).filterMap toPair?))) := by
  refine ⟨rollingStdGo_skip, corrGo_skip, ?_, ?_⟩
  · intro data w r i hw hok hi hne
    have hr : r = stdSpecGo w [] data :=
      Except.ok.inj (hok.symm.trans (rolling_std_eq_spec data w hw))
    subst hr
    rcases hv : data.getD i F.nan with q | _ | _ | _
    · rw [stdSpecGo_getD_fin w data [] i q (by simp) hi hv] at hne ⊢
      simp only [List.nil_append] at hne ⊢
      refine ⟨?_, trivial⟩
      by_contra hcnt
      exact hne (stdOutV_nan_of_short w _ (by rw [lastN_length]; omega))
    · exact absurd (stdSpecGo_getD_nonfin w data [] i hi (by rw [hv]; rfl)) hne
    · exact absurd (stdSpecGo_getD_nonfin w data [] i hi (by rw [hv]; rfl)) hne
    · exact absurd (stdSpecGo_getD_nonfin w data [] i hi (by rw [hv]; rfl)) hne
  · intro x y w r i hw hxy hok hi hne
    have hr : r = corrSpecGo w [] (x.zip y) :=
      Except.ok.inj (hok.symm.trans (rolling_correlation_eq_spec x y w hw))
    subst hr
    have hzi : i < (x.zip y).length := by
      rw [List.length_zip, hxy, Nat.min_self]
      exact hi
    rcases hv : toPair? ((x.zip y).getD i (F.nan, F.nan)) with _ | ab
    · exact absurd (corrSpecGo_getD_skip w (x.zip y) [] i hzi hv) hne
    · rw [corrSpecGo_getD_valid w (x.zip y) [] i ab (by simp) hzi hv] at hne ⊢
      simp only [List.nil_append] at hne ⊢
      refine ⟨?_, trivial⟩
      by_contra hcnt
      exact hne (corrOutV_nan_of_short w _ (by rw [lastN_length]; omega))

theorem claim_C5_witness :
    (F.nan).isFinite = false ∧
    rollingStdGo 2 [F.nan] [] 0 0 0 = F.nan :: rollingStdGo 2 [] [] 0 0 0 :=
  ⟨by decide, claim_C5.1 2 F.nan [] [] 0 0 0 (by decide)⟩

/-- Claim C8: for rolling_rank with w >= 2, at a position whose trailing
window of w values is finite and strictly increasing the output is exactly
1.0 (the current value is the maximum, ties counted inclusively); if that
window is strictly decreasing the output is 1.0 / w. -/
theorem claim_C8 : ∀ (data : List F) (w i : ℕ) (l : List ℚ) (c : ℚ) (r : List F),
    2 ≤ w → w - 1 ≤ i → i < data.length →
    rolling_rank data w = Except.ok r →
    lastN w (data.take (i+1)) = (l ++ [c]).map F.fin →
    (List.Chain' (· < ·) (l ++ [c]) → r.getD i F.nan = F.fin 1)
    ∧ (List.Chain' (· > ·) (l ++ [c]) → r.getD i F.nan = F.fin (1 / (w : ℚ))) := by
  intro data w i l c r hw hwi hi hok hwin
  have hr : r = (List.range data.length).map (rankAt data w) :=
    Except.ok.inj (hok.symm.trans (rolling_rank_ok data w hw))
  subst hr
  rw [getD_range_map _ _ _ hi]
  have hTlen : (data.take (i+1)).length = i + 1 := length_take_succ_of_lt data i hi
  have hlen : l.length + 1 = w := by
    have hc := congrArg List.length hwin
    rw [lastN_length, hTlen, List.length_map, List.length_append] at hc
    simp at hc
    omega
  have hcur : data.getD i F.nan = F.fin c := by
    apply getD_of_lastN_take F.nan data i w (l.map F.fin) (F.fin c) hi
    rw [hwin, List.map_append]
    rfl
  have hslice := slice_eq_lastN data i w (by omega) hi
  rw [rankAt, if_neg (show ¬ i < w - 1 by omega)]
  simp only [hslice, hwin, filterMap_toRat_map_fin, hcur]
  rw [if_neg (show ¬ ((l ++ [c]).isEmpty = true) by simp)]
  constructor
  · intro hchain
    have hpair : (l ++ [c]).Pairwise (· < ·) := List.chain'_iff_pairwise.mp hchain
    have hfilter : (l ++ [c]).filter (fun x => decide (x ≤ c)) = l ++ [c] := by
      apply List.filter_eq_self.mpr
      intro a ha
      rcases List.mem_append.mp ha with hal | hac
      · have hlt : a < c := (List.pairwise_append.mp hpair).2.2 a hal c (by simp)
        simp [le_of_lt hlt]
      · simp at hac
        subst hac
        simp
    rw [hfilter]
    have hne : (((l ++ [c]).length : ℕ) : ℚ) ≠ 0 := by
      rw [Nat.cast_ne_zero]
      simp
    rw [div_self hne]
  · intro hchain
    have hpair : (l ++ [c]).Pairwise (· > ·) := List.chain'_iff_pairwise.mp hchain
    have hfilter : (l ++ [c]).filter (fun x => decide (x ≤ c)) = [c] := by
      rw [List.filter_append]
      have h1 : l.filter (fun x => decide (x ≤ c)) = [] := by
        rw [List.filter_eq_nil_iff]
        intro a hal
        have hgt : c < a := (List.pairwise_append.mp hpair).2.2 a hal c (by simp)
        simp [not_le.mpr hgt]
      have h2 : ([c] : List ℚ).filter (fun x => decide (x ≤ c)) = [c] := by simp
      rw [h1, h2, List.nil_append]
    rw [hfilter]
    have hl2 : (l ++ [c]).length = w := by
      simp
      omega
    rw [hl2]
    norm_num

theorem claim_C8_witness :
    ([F.nan, F.fin 1] : List F).getD 1 F.nan = F.fin 1 ∧ 2 ≤ 2 :=
  ⟨(claim_C8 [F.fin 1, F.fin 2] 2 1 [1] 2 [F.nan, F.fin 1] (by decide) (by decide)
      (by decide)
      (by
        have h2 : List.range 2 = [0, 1] := by decide
        norm_num [rolling_rank, rankAt, F.toRat?, h2, List.filterMap_cons])
      (by decide)).1 (by norm_num [List.chain'_cons, List.chain'_singleton]),
    by decide⟩

/-- Counterexample to claim C6 as stated: rolling_std([1,1], 2) has an
all-finite trailing window of width 2 at position 1 yet outputs the sentinel
(zero variance), not a finite value. -/
theorem claim_C6_cex :
    rolling_std [F.fin 1, F.fin 1] 2 = Except.ok [F.nan, F.nan]
    ∧ (∀ a ∈ lastN 2 (([F.fin 1, F.fin 1] : List F).take 2), a.isFinite = true)
    ∧ (F.nan).isFinite = false := by
  refine ⟨?_, by decide, by decide⟩
  rw [rolling_std_ok _ 2 (by omega)]
  norm_num [rollingStdGo, stdEmit]

/-- Claim C6 (amended): for rolling_mean, rolling_std, rolling_rank and
rolling_correlation with a valid window, positions i with i+1 < w are the
sentinel.  At i+1 >= w, the finiteness half of the original claim holds with
the qualifications the code forces: rolling_rank is finite whenever the
trailing window is all-finite; rolling_mean is finite when the entire input
is finite; rolling_std additionally requires the (all-finite) trailing window
not to be constant (zero variance yields the sentinel, see the
counterexample); rolling_correlation additionally requires both coordinates
of the trailing window to be non-constant. -/
theorem claim_C6 :
    (∀ (data : List F) (w : ℕ) (r : List F) (i : ℕ), 1 ≤ w →
      rolling_mean data w = Except.ok r → i + 1 < w → i < r.length →
      r.getD i F.nan = F.nan)
    ∧ (∀ (data : List F) (w : ℕ) (r : List F) (i : ℕ), 2 ≤ w →
      rolling_std data w = Except.ok r → i + 1 < w → i < r.length →
      r.getD i F.nan = F.nan)
    ∧ (∀ (data : List F) (w : ℕ) (r : List F) (i : ℕ), 2 ≤ w →
      rolling_rank data w = Except.ok r → i + 1 < w → i < r.length →
      r.getD i F.nan = F.nan)
    ∧ (∀ (x y : List F) (w : ℕ) (r : List F) (i : ℕ), 2 ≤ w →
      y.length = x.length → rolling_correlation x y w = Except.ok r →
      i + 1 < w → i < r.length → r.getD i F.nan = F.nan)
    ∧ (∀ (q : List ℚ) (w : ℕ) (r : List F) (i : ℕ), 1 ≤ w →
      rolling_mean (q.map F.fin) w = Except.ok r → w ≤ i + 1 → i < r.length →
      (r.getD i F.nan).isFinite = true)
    ∧ (∀ (data : List F) (w : ℕ) (r : List F) (i : ℕ) (l : List ℚ), 2 ≤ w →
      rolling_std data w = Except.ok r → w ≤ i + 1 → i < r.length →
      lastN w (data.take (i+1)) = l.map F.fin → ¬ allEq l →
      (r.getD i F.nan).isFinite = true)
    ∧ (∀ (data : List F) (w : ℕ) (r : List F) (i : ℕ) (l : List ℚ), 2 ≤ w →
      rolling_rank data w = Except.ok r → w ≤ i + 1 → i < r.length →
      lastN w (data.take (i+1)) = l.map F.fin →
      (r.getD i F.nan).isFinite = true)
    ∧ (∀ (x y : List F) (w : ℕ) (r : List F) (i : ℕ) (l : List (ℚ × ℚ)), 2 ≤ w →
      y.length = x.length → rolling_correlation x y w = Except.ok r →
      w ≤ i + 1 → i < r.length →
      lastN w ((x.zip y).take (i+1)) = l.map (fun q => (F.fin q.1, F.fin q.2)) →
      ¬ allEq (l.map Prod.fst) → ¬ allEq (l.map Prod.snd) →
      (r.getD i F.nan).isFinite = true) := by
  refine ⟨?_, ?_, ?_, ?_, ?_, ?_, ?_, ?_⟩
  · intro data w r i hw hok hiw hir
    have hr : r = rollingMeanGo w data [] (F.fin 0) 0 :=
      Except.ok.inj (hok.symm.trans (rolling_mean_ok data w hw))
    subst hr
    exact rollingMeanGo_getD_nan w data [] (F.fin 0) 0 i
      (by rw [rollingMeanGo_length] at hir; exact hir) (by omega)
  · intro data w r i hw hok hiw hir
    have hr : r = stdSpecGo w [] data :=
      Except.ok.inj (hok.symm.trans (rolling_std_eq_spec data w hw))
    subst hr
    have hi : i < data.length := by rw [stdSpecGo_length] at hir; exact hir
    rcases hv : data.getD i F.nan with q | _ | _ | _
    · rw [stdSpecGo_getD_fin w data [] i q (by simp) hi hv]
      simp only [List.nil_append]
      have h1 : ((data.take (i+1)).filterMap F.toRat?).length ≤ i + 1 :=
        le_trans (List.length_filterMap_le _ _) (by rw [List.length_take]; omega)
      exact stdOutV_nan_of_short w _ (by rw [lastN_length]; omega)
    · exact stdSpecGo_getD_nonfin w data [] i hi (by rw [hv]; rfl)
    · exact stdSpecGo_getD_nonfin w data [] i hi (by rw [hv]; rfl)
    · exact stdSpecGo_getD_nonfin w data [] i hi (by rw [hv]; rfl)
  · intro data w r i hw hok hiw hir
    have hr : r = (List.range data.length).map (rankAt data w) :=
      Except.ok.inj (hok.symm.trans (rolling_rank_ok data w hw))
    subst hr
    have hi : i < data.length := by
      rw [List.length_map, List.length_range] at hir
      exact hir
    rw [getD_range_map _ _ _ hi, rankAt, if_pos (by omega)]
  · intro x y w r i hw hxy hok hiw hir
    have hr : r = corrSpecGo w [] (x.zip y) :=
      Except.ok.inj (hok.symm.trans (rolling_correlation_eq_spec x y w hw))
    subst hr
    have hzi : i < (x.zip y).length := by
      rw [corrSpecGo_length] at hir
      exact hir
    rcases hv : toPair? ((x.zip y).getD i (F.nan, F.nan)) with _ | ab
    · exact corrSpecGo_getD_skip w (x.zip y) [] i hzi hv
    · rw [corrSpecGo_getD_valid w (x.zip y) [] i ab (by simp) hzi hv]
      simp only [List.nil_append]
      have h1 : (((x.zip y).take (i+1)).filterMap toPair?).length ≤ i + 1 :=
        le_trans (List.length_filterMap_le _ _) (by rw [List.length_take]; omega)
      exact corrOutV_nan_of_short w _ (by rw [lastN_length]; omega)
  · intro q w r i hw hok hwi hir
    have hr : r = meanSpecGo w [] q :=
      Except.ok.inj (hok.symm.trans (rolling_mean_eq_spec q w hw))
    subst hr
    have hi : i < q.length := by rw [meanSpecGo_length] at hir; exact hir
    rw [meanSpecGo_getD w q [] i (by simp) hi]
    simp only [List.nil_append]
    have hlen : (lastN w (q.take (i+1))).length = w := by
      rw [lastN_length, List.length_take]
      omega
    rw [hlen, meanEmit_full w hw]
    rfl
  · intro data w r i l hw hok hwi hir hwin hne
    have hr : r = stdSpecGo w [] data :=
      Except.ok.inj (hok.symm.trans (rolling_std_eq_spec data w hw))
    subst hr
    have hi : i < data.length := by rw [stdSpecGo_length] at hir; exact hir
    have hllen : l.length = w := by
      have hc := congrArg List.length hwin
      rw [lastN_length, length_take_succ_of_lt data i hi, List.length_map] at hc
      omega
    rcases List.eq_nil_or_concat l with rfl | ⟨ys, yv, rfl⟩
    · simp at hllen
      omega
    · simp only [List.concat_eq_append] at hwin hne hllen
      have hcur : data.getD i F.nan = F.fin yv := by
        apply getD_of_lastN_take F.nan data i w (ys.map F.fin) (F.fin yv) hi
        rw [hwin, List.map_append]
        rfl
      rw [stdSpecGo_getD_fin w data [] i yv (by simp) hi hcur]
      simp only [List.nil_append]
      rw [lastN_filterMap_of_finite_window w _ _ hwin hllen]
      exact stdOutV_isFinite_of w _ hllen hne
  · intro data w r i l hw hok hwi hir hwin
    have hr : r = (List.range data.length).map (rankAt data w) :=
      Except.ok.inj (hok.symm.trans (rolling_rank_ok data w hw))
    subst hr
    have hi : i < data.length := by
      rw [List.length_map, List.length_range] at hir
      exact hir
    have hllen : l.length = w := by
      have hc := congrArg List.length hwin
      rw [lastN_length, length_take_succ_of_lt data i hi, List.length_map] at hc
      omega
    rcases List.eq_nil_or_concat l with rfl | ⟨ys, yv, rfl⟩
    · simp at hllen
      omega
    · simp only [List.concat_eq_append] at hwin hllen
      have hcur : data.getD i F.nan = F.fin yv := by
        apply getD_of_lastN_take F.nan data i w (ys.map F.fin) (F.fin yv) hi
        rw [hwin, List.map_append]
        rfl
      have hslice := slice_eq_lastN data i w (by omega) hi
      rw [getD_range_map _ _ _ hi, rankAt, if_neg (show ¬ i < w - 1 by omega)]
      simp only [hslice, hwin, filterMap_toRat_map_fin, hcur]
      rw [if_neg (show ¬ ((ys ++ [yv]).isEmpty = true) by simp)]
      rfl
  · intro x y w r i l hw hxy hok hwi hir hwin hnx hny
    have hr : r = corrSpecGo w [] (x.zip y) :=
      Except.ok.inj (hok.symm.trans (rolling_correlation_eq_spec x y w hw))
    subst hr
    have hzi : i < (x.zip y).length := by
      rw [corrSpecGo_length] at hir
      exact hir
    have hllen : l.length = w := by
      have hc := congrArg List.length hwin
      rw [lastN_length, length_take_succ_of_lt (x.zip y) i hzi, List.length_map] at hc
      omega
    rcases List.eq_nil_or_concat l with rfl | ⟨ys, yp, rfl⟩
    · simp at hllen
      omega
    · simp only [List.concat_eq_append] at hwin hnx hny hllen
      have hcur : (x.zip y).getD i (F.nan, F.nan) = (F.fin yp.1, F.fin yp.2) := by
        apply getD_of_lastN_take (F.nan, F.nan) (x.zip y) i w
          (ys.map fun q => (F.fin q.1, F.fin q.2)) (F.fin yp.1, F.fin yp.2) hzi
        rw [hwin, List.map_append]
        rfl
      rw [corrSpecGo_getD_valid w (x.zip y) [] i (yp.1, yp.2) (by simp) hzi
        (by rw [hcur]; rfl)]
      simp only [List.nil_append]
      rw [lastN_filterMap_of_finite_window_pair w _ _ hwin hllen]
      exact corrOutV_isFinite_of w _ hllen hnx hny

theorem claim_C6_witness :
    ([F.nan, F.nan, F.nan] : List F).getD 0 F.nan = F.nan ∧ 1 ≤ 3 :=
  ⟨claim_C6.1 [F.nan, F.nan, F.fin 2] 3 [F.nan, F.nan, F.nan] 0 (by decide)
    (by decide) (by decide) (by decide), by decide⟩
